import Mathlib

/-!
Verification of the chat-ffs normalization/projection pipeline.

The model follows `src/chat_ffs/fs_generator.py` and
`src/chat_ffs/providers/claude.py`.  Python `str` values are embedded as
`List Char` (a Python string is a sequence of Unicode code points).
Python `dict`s (insertion ordered) are embedded as association lists with
an insert-or-replace operation that preserves the position of an existing
key, as CPython dicts do.
-/

namespace ChatFfs

/-- Embedding of Python `str`: a sequence of Unicode code points. -/
abbrev Str := List Char

/-! ## Decimal rendering of natural numbers

`natRepr n` is the decimal representation of `n`, as produced by Python's
`str`/`format` on a nonnegative `int` (no sign, no padding, most
significant digit first). -/

/-- The character for a single decimal digit `d < 10`. -/
def digitChar (d : Nat) : Char := Char.ofNat (48 + d)

/-- Numeric value of a decimal digit character. -/
def charVal (c : Char) : Nat := c.toNat - 48

/-- Worker for `natRepr`: structurally recursive on a fuel bound so the
kernel can evaluate it; `fuel` many divisions by 10 suffice whenever
`n < 10 ^ fuel`. -/
def natReprAux : Nat → Nat → Str
  | 0, _ => []
  | fuel + 1, n =>
    if n < 10 then [digitChar n]
    else natReprAux fuel (n / 10) ++ [digitChar (n % 10)]

/-- Decimal representation of a natural number (`str(n)` in Python). -/
def natRepr (n : Nat) : Str := natReprAux (n + 1) n

/-- Zero-pad a digit string on the left to width `w` (Python `{:0wd}`
formatting; strings already at least `w` long are unchanged). -/
def padZeros (w : Nat) (s : Str) : Str :=
  List.replicate (w - s.length) '0' ++ s

/-- `f"{n:03d}"` in Python. -/
def pad3 (n : Nat) : Str := padZeros 3 (natRepr n)

/-- Decode a digit string back to the natural number it denotes. -/
def decodeDigits (s : Str) : Nat :=
  Nat.ofDigits 10 ((s.map charVal).reverse)

/-! ## `slugify` (fs_generator.py, lines 15–43)

`slugify` first applies `unicodedata.normalize("NFKD", title)`, a
string-to-string map, and then a deterministic pipeline.  The model takes
the normalized string as its input; every theorem below quantifies over
all input strings, hence over all possible NFKD outputs, so nothing is
lost by not modelling the normalization table itself. -/

/-- Characters the slug keeps: `[a-z0-9]`. -/
def isSlugChar (c : Char) : Bool :=
  (97 ≤ c.toNat && c.toNat ≤ 122) || (48 ≤ c.toNat && c.toNat ≤ 57)

/-- `slug.encode("ascii", "ignore").decode("ascii").lower()`: drop all
non-ASCII code points, then lowercase. -/
def asciiLower (s : Str) : Str :=
  (s.filter (fun c => c.toNat < 128)).map Char.toLower

/-- Worker for `hyphenate`.  The Boolean records whether the previous
character belonged to a run that is being replaced, so that each maximal
bad run contributes exactly one hyphen. -/
def hyphenateAux : Bool → Str → Str
  | _, [] => []
  | inRun, c :: cs =>
    if isSlugChar c then c :: hyphenateAux false cs
    else if inRun then hyphenateAux true cs
    else '-' :: hyphenateAux true cs

/-- `re.sub(r"[^a-z0-9]+", "-", slug)`: replace every maximal run of
characters outside `[a-z0-9]` by a single hyphen. -/
def hyphenate (s : Str) : Str := hyphenateAux false s

/-- `slug.strip("-")`: remove leading and trailing hyphens. -/
def pyStripHyphens (s : Str) : Str :=
  List.rdropWhile (fun c => c = '-') (s.dropWhile (fun c => c = '-'))

/-- Worker for `collapseHyphens`; the Boolean records whether the previous
kept character was a hyphen. -/
def collapseAux : Bool → Str → Str
  | _, [] => []
  | prevHyphen, c :: cs =>
    if c = '-' then
      if prevHyphen then collapseAux true cs else '-' :: collapseAux true cs
    else c :: collapseAux false cs

/-- `re.sub(r"-+", "-", slug)`: collapse runs of hyphens to one. -/
def collapseHyphens (s : Str) : Str := collapseAux false s

/-- `slug.rsplit("-", 1)[0]`: everything before the last hyphen, or the
whole string when it has no hyphen. -/
def rsplitHead (s : Str) : Str :=
  if s.contains '-' then (List.rdropWhile (fun c => c ≠ '-') s).dropLast else s

/-- `slugify(title, max_len)` from fs_generator.py (after NFKD
normalization, see the section comment). -/
def slugify (title : Str) (maxLen : Nat := 50) : Str :=
  let s1 := asciiLower title
  let s2 := hyphenate s1
  let s3 := pyStripHyphens s2
  let s4 := collapseHyphens s3
  let s5 := if maxLen < s4.length then rsplitHead (s4.take maxLen) else s4
  if s5 = [] then "untitled".data else s5

/-- No two adjacent hyphens (Boolean). -/
def noDoubleHyphen : Str → Bool
  | [] => true
  | [_] => true
  | a :: b :: rest => !(a = '-' && b = '-') && noDoubleHyphen (b :: rest)

/-- Boolean recognizer for the language `^[a-z0-9]+(-[a-z0-9]+)*$`:
nonempty, only `[a-z0-9-]`, no leading/trailing hyphen, no run of two
hyphens. -/
def slugShape (s : Str) : Bool :=
  !(s.isEmpty) && s.all (fun c => isSlugChar c || c = '-') &&
    !(s.head? = some '-') && !(s.getLast? = some '-') && noDoubleHyphen s

/-! ## Timestamps

Embedding of the `datetime` values the program manipulates.  Fields are
plain naturals; the optional UTC offset is in minutes (`none` = a naive
datetime, as produced by `datetime.now()`). -/

structure PyDateTime where
  year : Nat
  month : Nat
  day : Nat
  hour : Nat
  minute : Nat
  second : Nat
  usec : Nat
  tzMin : Option Int
deriving DecidableEq

/-- Python `datetime` invariants relevant to formatting widths
(`datetime.MINYEAR = 1`, `datetime.MAXYEAR = 9999`, valid month/day). -/
def PyDateTime.Valid (d : PyDateTime) : Prop :=
  1 ≤ d.year ∧ d.year ≤ 9999 ∧ 1 ≤ d.month ∧ d.month ≤ 12 ∧
    1 ≤ d.day ∧ d.day ≤ 31

instance (d : PyDateTime) : Decidable d.Valid := by
  unfold PyDateTime.Valid
  infer_instance

def pad2 (n : Nat) : Str := padZeros 2 (natRepr n)

def pad4 (n : Nat) : Str := padZeros 4 (natRepr n)

def pad6 (n : Nat) : Str := padZeros 6 (natRepr n)

/-- `dt.strftime("%Y-%m-%d")` as CPython renders it on glibc: `%m` and
`%d` are zero-padded to two digits, but `%Y` prints the year as a plain
decimal with no zero-padding below year 1000 (`datetime(99, 1, 15)`
formats as `99-01-15`). -/
def formatDateYMD (d : PyDateTime) : Str :=
  natRepr d.year ++ '-' :: pad2 d.month ++ '-' :: pad2 d.day

/-- Rendering of a UTC offset as `±HH:MM` (empty for a naive datetime). -/
def formatOffset : Option Int → Str
  | none => []
  | some off =>
    let sign := if off < 0 then '-' else '+'
    let a := off.natAbs
    sign :: pad2 (a / 60) ++ ':' :: pad2 (a % 60)

/-- `dt.isoformat()`: microseconds are printed only when nonzero, the
offset only for aware datetimes. -/
def isoformat (d : PyDateTime) : Str :=
  pad4 d.year ++ '-' :: pad2 d.month ++ '-' :: pad2 d.day ++ 'T' ::
    pad2 d.hour ++ ':' :: pad2 d.minute ++ ':' :: pad2 d.second ++
    (if d.usec = 0 then [] else '.' :: pad6 d.usec) ++ formatOffset d.tzMin

def isLeapYear (y : Nat) : Bool :=
  (y % 4 = 0 && !(y % 100 = 0)) || y % 400 = 0

def daysInMonth (y m : Nat) : Nat :=
  if m = 2 then (if isLeapYear y then 29 else 28)
  else if m = 4 ∨ m = 6 ∨ m = 9 ∨ m = 11 then 30
  else 31

def digit2 (a b : Char) : Option Nat :=
  if a.isDigit && b.isDigit then some (charVal a * 10 + charVal b) else none

def digit4 (a b c d : Char) : Option Nat :=
  if a.isDigit && b.isDigit && c.isDigit && d.isDigit then
    some (((charVal a * 10 + charVal b) * 10 + charVal c) * 10 + charVal d)
  else none

/-- Fractional-second digits (1 to 6 of them) scaled to microseconds. -/
def fracUsec (cs : Str) : Option Nat :=
  if cs.length = 0 ∨ 6 < cs.length ∨ ¬ cs.all Char.isDigit then none
  else some (decodeDigits cs * 10 ^ (6 - cs.length))

/-- Time-of-day part `HH[:MM[:SS[.ffffff]]]` of an ISO string. -/
def parseHMS : Str → Option (Nat × Nat × Nat × Nat)
  | [h1, h2] => do pure (← digit2 h1 h2, 0, 0, 0)
  | [h1, h2, ':', m1, m2] => do pure (← digit2 h1 h2, ← digit2 m1 m2, 0, 0)
  | [h1, h2, ':', m1, m2, ':', s1, s2] => do
    pure (← digit2 h1 h2, ← digit2 m1 m2, ← digit2 s1 s2, 0)
  | h1 :: h2 :: ':' :: m1 :: m2 :: ':' :: s1 :: s2 :: '.' :: frac => do
    pure (← digit2 h1 h2, ← digit2 m1 m2, ← digit2 s1 s2, ← fracUsec frac)
  | _ => none

/-- Trailing timezone designator: empty, `Z`/`z`, or `±HH:MM`. -/
def parseTzPart : Str → Option (Option Int)
  | [] => some none
  | ['Z'] => some (some 0)
  | ['z'] => some (some 0)
  | [sgn, h1, h2, ':', m1, m2] => do
    let hh ← digit2 h1 h2
    let mm ← digit2 m1 m2
    if (sgn = '+' ∨ sgn = '-') ∧ hh ≤ 23 ∧ mm ≤ 59 then
      let v : Int := hh * 60 + mm
      pure (some (if sgn = '-' then -v else v))
    else none
  | _ => none

/-- Is `c` the start of a timezone designator inside the time part? -/
def isTzMarker (c : Char) : Bool := c = '+' || c = '-' || c = 'Z' || c = 'z'

/-- Model of `datetime.fromisoformat` on the profile of strings this
program meets: extended-format date `YYYY-MM-DD`, an arbitrary single
separator character, time of day and optional `±HH:MM`/`Z` offset, with
calendar validation.  (CPython 3.11 accepts further exotic forms — basic
format, week dates — that no claim depends on.) -/
def fromIso : Str → Option PyDateTime
  | y1 :: y2 :: y3 :: y4 :: '-' :: m1 :: m2 :: '-' :: d1 :: d2 :: rest => do
    let y ← digit4 y1 y2 y3 y4
    let m ← digit2 m1 m2
    let d ← digit2 d1 d2
    if 1 ≤ y ∧ 1 ≤ m ∧ m ≤ 12 ∧ 1 ≤ d ∧ d ≤ daysInMonth y m then
      match rest with
      | [] => pure ⟨y, m, d, 0, 0, 0, 0, none⟩
      | _sep :: timecs => do
        let tstr := timecs.takeWhile (fun c => !isTzMarker c)
        let ostr := timecs.dropWhile (fun c => !isTzMarker c)
        let (hh, mi, ss, us) ← parseHMS tstr
        let off ← parseTzPart ostr
        if hh ≤ 23 ∧ mi ≤ 59 ∧ ss ≤ 59 then
          pure ⟨y, m, d, hh, mi, ss, us, off⟩
        else none
    else none
  | _ => none

/-! ## JSON values and Python dynamic semantics -/

/-- Embedding of the JSON values `json.load` can produce and the
generator renders.  Numbers are integers; nothing in the Format-A
pipeline manipulates fractional JSON numbers. -/
inductive JValue where
  | null
  | bool (b : Bool)
  | num (n : Int)
  | str (s : Str)
  | arr (elems : List JValue)
  | obj (fields : List (Str × JValue))

/-- Python exceptions distinguished by the handlers in this program. -/
inductive PyErr where
  | badZipFile
  | osError
  | jsonDecodeError
  | typeError
  | attributeError
deriving DecidableEq

/-- Python truthiness of a JSON value. -/
def truthy : JValue → Bool
  | .null => false
  | .bool b => b
  | .num n => !(n = 0)
  | .str s => !s.isEmpty
  | .arr l => !l.isEmpty
  | .obj l => !l.isEmpty

/-- Lookup in a JSON object, first match (keys produced by `json.load`
are unique: a duplicated key in the source text keeps the last value). -/
def objGetD (fields : List (Str × JValue)) (k : Str) (dflt : JValue) : JValue :=
  match fields with
  | [] => dflt
  | (k', v) :: rest => if k' = k then v else objGetD rest k dflt

/-- `data.get(k, dflt)`: attribute error unless the receiver is a dict. -/
def pyGet (j : JValue) (k : Str) (dflt : JValue) : Except PyErr JValue :=
  match j with
  | .obj fields => .ok (objGetD fields k dflt)
  | _ => .error .attributeError

/-- `len(v)` for `str`/`list`/`dict`; `TypeError` otherwise. -/
def pyLen : JValue → Except PyErr Int
  | .str s => .ok s.length
  | .arr l => .ok l.length
  | .obj l => .ok l.length
  | _ => .error .typeError

/-- `v.items()`: attribute error unless the receiver is a dict. -/
def pyItems : JValue → Except PyErr (List (Str × JValue))
  | .obj l => .ok l
  | _ => .error .attributeError

/-- Run `body`, catching exactly the exceptions selected by `handles`
(the `try`/`except` statement). -/
def pyCatch (body : Except PyErr α) (handles : PyErr → Bool) (fallback : α) :
    Except PyErr α :=
  match body with
  | .ok a => .ok a
  | .error e => if handles e then .ok fallback else .error e

/-! ## Rendering (`json.dumps(obj, indent=2)`, default `ensure_ascii`) -/

def lbrace : Char := Char.ofNat 123

def rbrace : Char := Char.ofNat 125

def hexDigit (n : Nat) : Char :=
  if n < 10 then digitChar n else Char.ofNat (97 + (n - 10))

def hex4 (n : Nat) : Str :=
  [hexDigit (n / 4096 % 16), hexDigit (n / 256 % 16),
   hexDigit (n / 16 % 16), hexDigit (n % 16)]

/-- One character of a JSON string literal under `ensure_ascii=True`:
characters outside `0x20`–`0x7E` are `\uXXXX`-escaped (with surrogate
pairs beyond the BMP), plus the usual short escapes. -/
def escapeChar (c : Char) : Str :=
  if c = '"' then ['\\', '"']
  else if c = '\\' then ['\\', '\\']
  else if c = '\n' then ['\\', 'n']
  else if c = '\t' then ['\\', 't']
  else if c = '\r' then ['\\', 'r']
  else if c.toNat = 8 then ['\\', 'b']
  else if c.toNat = 12 then ['\\', 'f']
  else if 32 ≤ c.toNat ∧ c.toNat ≤ 126 then [c]
  else if c.toNat < 65536 then '\\' :: 'u' :: hex4 c.toNat
  else
    let v := c.toNat - 65536
    '\\' :: 'u' :: hex4 (55296 + v / 1024) ++ '\\' :: 'u' :: hex4 (56320 + v % 1024)

def escapeStr (s : Str) : Str :=
  '"' :: (s.map escapeChar).flatten ++ ['"']

def intRepr (n : Int) : Str :=
  if n < 0 then '-' :: natRepr n.natAbs else natRepr n.natAbs

mutual

/-- Render a JSON value at indentation level `ind` (`json.dumps` with
`indent=2`: item separator `","`, key separator `": "`). -/
def renderJ (ind : Nat) : JValue → Str
  | .null => "null".data
  | .bool b => if b then "true".data else "false".data
  | .num n => intRepr n
  | .str s => escapeStr s
  | .arr [] => "[]".data
  | .arr (x :: xs) =>
    '[' :: '\n' :: renderItems (ind + 2) (x :: xs) ++
      '\n' :: (List.replicate ind ' ' ++ [']'])
  | .obj [] => [lbrace, rbrace]
  | .obj (f :: fs) =>
    lbrace :: '\n' :: renderFields (ind + 2) (f :: fs) ++
      '\n' :: (List.replicate ind ' ' ++ [rbrace])

def renderItems (ind : Nat) : List JValue → Str
  | [] => []
  | [x] => List.replicate ind ' ' ++ renderJ ind x
  | x :: y :: xs =>
    List.replicate ind ' ' ++ renderJ ind x ++
      ',' :: '\n' :: renderItems ind (y :: xs)

def renderFields (ind : Nat) : List (Str × JValue) → Str
  | [] => []
  | [(k, v)] => List.replicate ind ' ' ++ escapeStr k ++ ':' :: ' ' :: renderJ ind v
  | (k, v) :: g :: fs =>
    List.replicate ind ' ' ++ escapeStr k ++ ':' :: ' ' :: renderJ ind v ++
      ',' :: '\n' :: renderFields ind (g :: fs)

end

/-- `json.dumps(v, indent=2)`. -/
def jsonDumps (v : JValue) : Str := renderJ 0 v

/-- Remove a top-level field of a JSON object (used to state
"identical except for this field"). -/
def objEraseKey (k : Str) : JValue → JValue
  | .obj fields => .obj (fields.filter (fun p => !(p.1 = k)))
  | v => v

/-! ## Python dicts -/

/-- CPython dict assignment `d[k] = v`: replaces the value of an
existing key in place, appends a new key at the end. -/
def dictInsert (d : List (Str × α)) (k : Str) (v : α) : List (Str × α) :=
  match d with
  | [] => [(k, v)]
  | (k', v') :: rest =>
    if k' = k then (k', v) :: rest else (k', v') :: dictInsert rest k v

/-- Dict lookup. -/
def dictGet? (d : List (Str × α)) (k : Str) : Option α :=
  match d with
  | [] => none
  | (k', v) :: rest => if k' = k then some v else dictGet? rest k

/-! ## Normalized data model (providers/base.py)

The dataclasses of `providers/base.py` declare typed fields; this is the
model consumed by the projector.  (The parser embedding further below
uses raw `JValue` fields where the Python code performs no conversion.) -/

inductive Role where
  | user
  | assistant
  | system
deriving DecidableEq

def roleStr : Role → Str
  | .user => "user".data
  | .assistant => "assistant".data
  | .system => "system".data

structure Attachment where
  id : Str
  filename : Str
  mimeType : Str
  size : Option Int
deriving DecidableEq

structure Message where
  id : Str
  role : Role
  content : Str
  timestamp : PyDateTime
  attachments : List Attachment
deriving DecidableEq

structure Conversation where
  id : Str
  title : Str
  createdAt : PyDateTime
  updatedAt : PyDateTime
  provider : Str
  messages : List Message
deriving DecidableEq

structure ProjectDoc where
  id : Str
  filename : Str
  content : Str
  createdAt : PyDateTime
deriving DecidableEq

structure Project where
  id : Str
  name : Str
  description : Str
  createdAt : PyDateTime
  updatedAt : PyDateTime
  docs : List ProjectDoc
deriving DecidableEq

/-- The `Memories` container (its dataclass declaration is not part of
the provided sources; `parse_memories` constructs it directly from the
decoded JSON without conversion, so its fields are raw JSON values). -/
structure Memories where
  conversationsMemory : JValue
  projectMemories : JValue

/-! ## Namespace projection (fs_generator.py) -/

/-- A node of the produced namespace tree: a leaf holds the value the
Python code stores in the dict (a string for every leaf the generator
itself builds; raw JSON for memory blobs, which the code stores without
conversion). -/
inductive FsEntry where
  | leaf (v : JValue)
  | dir (entries : List (Str × FsEntry))

abbrev Dir := List (Str × FsEntry)

/-- `generate_dirname`: `{created_at:%Y-%m-%d}_{slugify(title)}`. -/
def generate_dirname (conv : Conversation) : Str :=
  formatDateYMD conv.createdAt ++ '_' :: slugify conv.title 50

/-- The dict `_generate_metadata` serializes. -/
def metadataObj (conv : Conversation) : List (Str × JValue) :=
  [ ("id".data, .str conv.id),
    ("title".data, .str conv.title),
    ("created_at".data, .str (isoformat conv.createdAt)),
    ("updated_at".data, .str (isoformat conv.updatedAt)),
    ("provider".data, .str conv.provider),
    ("message_count".data, .num conv.messages.length)]

/-- `_generate_metadata`. -/
def generate_metadata (conv : Conversation) : Str :=
  jsonDumps (.obj (metadataObj conv))

/-- `f"{i:03d}_{msg.role}.md"`. -/
def msgFilename (i : Nat) (r : Role) : Str :=
  pad3 i ++ '_' :: roleStr r ++ ".md".data

/-- The per-conversation directory (fs_generator.py lines 226–234):
`_metadata.json` first, then one file per message, 1-based, in order. -/
def buildConvDir (conv : Conversation) : Dir :=
  conv.messages.enum.foldl
    (fun d p => dictInsert d (msgFilename (p.1 + 1) p.2.role) (.leaf (.str p.2.content)))
    (dictInsert [] "_metadata.json".data (.leaf (.str (generate_metadata conv))))

/-- Duplicate-name resolution step (fs_generator.py lines 218–223):
first occurrence keeps the base name and records count 1; a repeat
increments the count and appends `_{count}`. -/
def stepName (counts : List (Str × Nat)) (base : Str) : Str × List (Str × Nat) :=
  match dictGet? counts base with
  | some c => (base ++ '_' :: natRepr (c + 1), dictInsert counts base (c + 1))
  | none => (base, dictInsert counts base 1)

/-- The conversation loop of `generate_fs_json`: resolved directory name
and directory contents for each conversation, in input order. -/
def convEntries (counts : List (Str × Nat)) : List Conversation → List (Str × Dir)
  | [] => []
  | conv :: rest =>
    let p := stepName counts (generate_dirname conv)
    (p.1, buildConvDir conv) :: convEntries p.2 rest

/-- Per-conversation summary inside the root `_index.json`. -/
def convSummary (conv : Conversation) : JValue :=
  .obj
    [ ("id".data, .str conv.id),
      ("title".data, .str conv.title),
      ("created_at".data, .str (isoformat conv.createdAt)),
      ("provider".data, .str conv.provider),
      ("message_count".data, .num conv.messages.length)]

/-- Per-project summary inside the root `_index.json`. -/
def projSummaryRoot (p : Project) : JValue :=
  .obj
    [ ("id".data, .str p.id),
      ("name".data, .str p.name),
      ("created_at".data, .str (isoformat p.createdAt)),
      ("doc_count".data, .num p.docs.length)]

/-- The fields of the root index other than `generated_at`, split around
it so that the field order of `_generate_index` is preserved:
`conversation_count`, `generated_at`, `conversations`, then optional
project and memory fields.  The memory fields evaluate `len` on the raw
`project_memories` value, which can raise. -/
def indexFieldsTail (projects : Option (List Project))
    (memories : Option Memories) : Except PyErr (List (Str × JValue)) := do
  let projFields :=
    match projects with
    | some ps =>
      if ps.isEmpty then []
      else
        [ ("project_count".data, JValue.num ps.length),
          ("projects".data, JValue.arr (ps.map projSummaryRoot))]
    | none => []
  let memFields ←
    match memories with
    | some m => do
      let n ← pyLen m.projectMemories
      pure [("has_memories".data, JValue.bool true),
            ("project_memory_count".data, JValue.num n)]
    | none => pure ([] : List (Str × JValue))
  pure (projFields ++ memFields)

/-- The dict `_generate_index` serializes (root `_index.json`). -/
def indexObj (convs : List Conversation) (projects : Option (List Project))
    (memories : Option Memories) (now : PyDateTime) : Except PyErr JValue :=
  (indexFieldsTail projects memories).map fun tail =>
    .obj
      (("conversation_count".data, JValue.num convs.length) ::
        ("generated_at".data, JValue.str (isoformat now)) ::
        ("conversations".data, JValue.arr (convs.map convSummary)) :: tail)

/-- `_generate_index`. -/
def generate_index (convs : List Conversation) (projects : Option (List Project))
    (memories : Option Memories) (now : PyDateTime) : Except PyErr Str :=
  (indexObj convs projects memories now).map jsonDumps

/-- Per-document summary in a project's `_metadata.json`. -/
def docSummary (doc : ProjectDoc) : JValue :=
  .obj
    [ ("id".data, .str doc.id),
      ("filename".data, .str doc.filename),
      ("created_at".data, .str (isoformat doc.createdAt))]

/-- The dict `_generate_project_metadata` serializes. -/
def projectMetadataObj (p : Project) : JValue :=
  .obj
    [ ("id".data, .str p.id),
      ("name".data, .str p.name),
      ("description".data, .str p.description),
      ("created_at".data, .str (isoformat p.createdAt)),
      ("updated_at".data, .str (isoformat p.updatedAt)),
      ("doc_count".data, .num p.docs.length),
      ("docs".data, .arr (p.docs.map docSummary))]

/-- `_generate_project_metadata`. -/
def generate_project_metadata (p : Project) : Str :=
  jsonDumps (projectMetadataObj p)

/-- Per-project summary in `_projects/_index.json` (includes the
description, unlike the root summary). -/
def projSummaryIdx (p : Project) : JValue :=
  .obj
    [ ("id".data, .str p.id),
      ("name".data, .str p.name),
      ("description".data, .str p.description),
      ("created_at".data, .str (isoformat p.createdAt)),
      ("doc_count".data, .num p.docs.length)]

/-- The fields of `_generate_projects_index` after `generated_at`. -/
def projectsIndexTail (ps : List Project) : List (Str × JValue) :=
  [("projects".data, .arr (ps.map projSummaryIdx))]

/-- The dict `_generate_projects_index` serializes. -/
def projectsIndexObj (ps : List Project) (now : PyDateTime) : JValue :=
  .obj
    (("project_count".data, JValue.num ps.length) ::
      ("generated_at".data, JValue.str (isoformat now)) :: projectsIndexTail ps)

/-- `filename.rsplit(".", 1)` when the name contains a dot: the part
before the last dot and the extension after it. -/
def rsplitDot (s : Str) : Str × Str :=
  ((List.rdropWhile (fun c => c ≠ '.') s).dropLast,
    List.rtakeWhile (fun c => c ≠ '.') s)

/-- The `while` loop searching a free `{base}_{counter}[.ext]` name
(fs_generator.py lines 291–294).  The fuel is one more than the
directory size, which the pigeonhole principle makes sufficient. -/
def freeDocName (d : Dir) (base ext : Str) : Nat → Nat → Str
  | counter, 0 =>
    if ext.isEmpty then base ++ '_' :: natRepr counter
    else base ++ '_' :: natRepr counter ++ '.' :: ext
  | counter, fuel + 1 =>
    let cand :=
      if ext.isEmpty then base ++ '_' :: natRepr counter
      else base ++ '_' :: natRepr counter ++ '.' :: ext
    if (dictGet? d cand).isSome then freeDocName d base ext (counter + 1) fuel
    else cand

/-- Insert one project document (fs_generator.py lines 285–296). -/
def projDocInsert (d : Dir) (doc : ProjectDoc) : Dir :=
  let filename :=
    if (dictGet? d doc.filename).isSome then
      let be := if doc.filename.contains '.' then rsplitDot doc.filename
                else (doc.filename, [])
      freeDocName d be.1 be.2 2 (d.length + 1)
    else doc.filename
  dictInsert d filename (.leaf (.str doc.content))

/-- One project directory: `_metadata.json` then its documents. -/
def buildProjDir (p : Project) : Dir :=
  p.docs.foldl projDocInsert
    (dictInsert [] "_metadata.json".data (.leaf (.str (generate_project_metadata p))))

/-- The project loop of `_generate_projects_fs` (same duplicate-name
policy as conversations, applied to `slugify(proj.name)`). -/
def projEntries (counts : List (Str × Nat)) : List Project → List (Str × Dir)
  | [] => []
  | p :: rest =>
    let q := stepName counts (slugify p.name 50)
    (q.1, buildProjDir p) :: projEntries q.2 rest

/-- `_generate_projects_fs`: project directories, then `_index.json`. -/
def generate_projects_fs (ps : List Project) (now : PyDateTime) : Dir :=
  dictInsert
    ((projEntries [] ps).foldl (fun d q => dictInsert d q.1 (.dir q.2)) [])
    "_index.json".data (.leaf (.str (jsonDumps (projectsIndexObj ps now))))

/-- `proj.id → proj.name` mapping built by the memories generator. -/
def projectNamesOf : Option (List Project) → List (Str × Str)
  | none => []
  | some ps => ps.foldl (fun m p => dictInsert m p.id p.name) []

/-- The `while` loop searching a free `{base}_{counter}.md` name
(fs_generator.py lines 338–342). -/
def freeMemName (d : Dir) (base : Str) : Nat → Nat → Str
  | counter, 0 => base ++ '_' :: natRepr counter ++ ".md".data
  | counter, fuel + 1 =>
    let cand := base ++ '_' :: natRepr counter ++ ".md".data
    if (dictGet? d cand).isSome then freeMemName d base (counter + 1) fuel
    else cand

/-- Insert one project-memory file (fs_generator.py lines 331–344). -/
def memEntryInsert (pnames : List (Str × Str)) (d : Dir) (pid : Str)
    (content : JValue) : Dir :=
  let pname := (dictGet? pnames pid).getD (pid.take 8)
  let base := slugify pname 50
  let filename :=
    if (dictGet? d (base ++ ".md".data)).isSome then
      freeMemName d base 2 (d.length + 1)
    else base ++ ".md".data
  dictInsert d filename (.leaf content)

/-- `_generate_memories_fs` before the `_index.json` assignment:
`conversations.md` (when the blob is truthy) and the `projects`
subdirectory.  Iterating `.items()` on a non-dict raises. -/
def memoriesCore (m : Memories) (projects : Option (List Project)) :
    Except PyErr Dir := do
  let fs0 : Dir :=
    if truthy m.conversationsMemory then
      dictInsert [] "conversations.md".data (.leaf m.conversationsMemory)
    else []
  if truthy m.projectMemories then do
    let items ← pyItems m.projectMemories
    let pnames := projectNamesOf projects
    let pmDir := items.foldl (fun d q => memEntryInsert pnames d q.1 q.2) []
    if pmDir.isEmpty then pure fs0
    else pure (dictInsert fs0 "projects".data (.dir pmDir))
  else pure fs0

/-- One entry of the `project_memories` summary list in the memories
index; `len(content)` raises on non-sized values. -/
def memSummary (pnames : List (Str × Str)) (pid : Str) (content : JValue) :
    Except PyErr JValue := do
  let ml ← pyLen content
  pure (.obj
    [ ("project_id".data, .str pid),
      ("project_name".data, .str ((dictGet? pnames pid).getD "Unknown".data)),
      ("memory_length".data, .num ml)])

/-- The fields of `_generate_memories_index` after `generated_at`, in
the dict-literal evaluation order of the source. -/
def memIndexTail (m : Memories) (projects : Option (List Project)) :
    Except PyErr (List (Str × JValue)) := do
  let pnames := projectNamesOf projects
  let cl ← pyLen m.conversationsMemory
  let pc ← pyLen m.projectMemories
  let items ← pyItems m.projectMemories
  let entries ← items.mapM (fun q => memSummary pnames q.1 q.2)
  pure
    [ ("has_conversations_memory".data, .bool (truthy m.conversationsMemory)),
      ("conversations_memory_length".data, .num cl),
      ("project_memory_count".data, .num pc),
      ("project_memories".data, .arr entries)]

/-- The dict `_generate_memories_index` serializes. -/
def memIndexObj (m : Memories) (projects : Option (List Project))
    (now : PyDateTime) : Except PyErr JValue :=
  (memIndexTail m projects).map fun tail =>
    .obj (("generated_at".data, JValue.str (isoformat now)) :: tail)

/-- `_generate_memories_fs`: the core entries, then `_index.json`. -/
def generate_memories_fs (m : Memories) (projects : Option (List Project))
    (now : PyDateTime) : Except PyErr Dir := do
  let core ← memoriesCore m projects
  let idx ← memIndexObj m projects now
  pure (dictInsert core "_index.json".data (.leaf (.str (jsonDumps idx))))

/-- The root dict after the conversation loop of `generate_fs_json`. -/
def convPart (convs : List Conversation) : List (Str × FsEntry) :=
  (convEntries [] convs).foldl (fun fs q => dictInsert fs q.1 (.dir q.2)) []

/-- The root dict after the `if projects:` block of `generate_fs_json`
(an empty list is falsy, so it adds nothing). -/
def projPart (convs : List Conversation) (now : PyDateTime) :
    Option (List Project) → List (Str × FsEntry)
  | some ps =>
    if ps.isEmpty then convPart convs
    else dictInsert (convPart convs) "_projects".data
      (.dir (generate_projects_fs ps now))
  | none => convPart convs

/-- The root dict after the `if memories:` block (a `Memories` instance
is always truthy); an exception from the memories generator propagates. -/
def fs2Part (convs : List Conversation) (projects : Option (List Project))
    (now : PyDateTime) : Option Memories → Except PyErr (List (Str × FsEntry))
  | some m =>
    match generate_memories_fs m projects now with
    | .error e => .error e
    | .ok md =>
      .ok (dictInsert (projPart convs now projects) "_memories".data (.dir md))
  | none => .ok (projPart convs now projects)

/-- `generate_fs_json`: conversation directories (with duplicate-name
resolution), optional `_projects` and `_memories`, then the root
`_index.json`.  `datetime.now()` is passed in as `now`, the only
run-dependent input; an exception anywhere propagates to the caller. -/
def generate_fs_json (convs : List Conversation) (projects : Option (List Project))
    (memories : Option Memories) (now : PyDateTime) :
    Except PyErr (List (Str × FsEntry)) :=
  match fs2Part convs projects now memories with
  | .error e => .error e
  | .ok fs2 =>
    match generate_index convs projects memories now with
    | .error e => .error e
    | .ok idx => .ok (dictInsert fs2 "_index.json".data (.leaf (.str idx)))

/-- The resolved top-level conversation directory names, in input
order. -/
def assignedNames (convs : List Conversation) : List Str :=
  (convEntries [] convs).map Prod.fst

/-! ## Format-A parser (providers/claude.py)

The parser operates on decoded JSON, so its record-level fields keep the
raw `JValue` type wherever the source performs no conversion.  Exceptions
are the `Except PyErr` error component; `try`/`except` is `pyCatch`. -/

/-- An opened export archive: opening can fail (`BadZipFile`/`OSError`,
raised and handled together everywhere in the source), otherwise each
entry name maps to the decode outcome of its bytes (`none`: `json.load`
raises `JSONDecodeError`). -/
inductive ZipFile where
  | bad
  | entries (items : List (Str × Option JValue))

/-- Entry lookup by name (`name in zf.namelist()` / `zf.open(name)`). -/
def zipLookup (items : List (Str × Option JValue)) (name : Str) :
    Option (Option JValue) :=
  match items with
  | [] => none
  | (n, v) :: rest => if n = name then some v else zipLookup rest name

/-- `name.startswith("conversations/") and name.endswith(".json")`. -/
def isConvJsonName (name : Str) : Bool :=
  List.isPrefixOf "conversations/".data name && List.isSuffixOf ".json".data name

/-- `k in v` for the `detect` probe: dict key test, substring test on
strings, element test on lists; `TypeError` otherwise (e.g. `"uuid" in 5`). -/
def pyInKey (k : Str) : JValue → Except PyErr Bool
  | .obj fields => .ok (fields.any (fun p => p.1 = k))
  | .str s => .ok (decide (k <:+: s))
  | .arr l => .ok (l.any (fun v => match v with | .str s => s = k | _ => false))
  | _ => .error .typeError

/-- `for x in v`: lists yield elements, strings their characters (as
1-character strings), dicts their keys; other values raise `TypeError`
at the loop head. -/
def pyIter : JValue → Except PyErr (List JValue)
  | .arr l => .ok l
  | .str s => .ok (s.map (fun c => .str [c]))
  | .obj l => .ok (l.map (fun p => .str p.1))
  | _ => .error .typeError

/-- `_parse_timestamp`: falsy input → `None`; a trailing `"Z"` becomes
`"+00:00"`; `ValueError` from `fromisoformat` is caught → `None`; a
truthy non-string raises `AttributeError` at `ts.endswith`. -/
def parse_timestamp (ts : JValue) : Except PyErr (Option PyDateTime) :=
  if !truthy ts then .ok none
  else
    match ts with
    | .str s =>
      let s' := if s.getLast? = some 'Z' then s.dropLast ++ "+00:00".data else s
      .ok (fromIso s')
    | _ => .error .attributeError

/-- `_map_sender_to_role`: `dict.get` with an unhashable key (list/dict)
raises `TypeError`; only `"human"` and `"assistant"` map to roles. -/
def map_sender_to_role (sender : JValue) : Except PyErr (Option Role) :=
  match sender with
  | .arr _ => .error .typeError
  | .obj _ => .error .typeError
  | .str s =>
    .ok (if s = "human".data then some Role.user
         else if s = "assistant".data then some Role.assistant
         else none)
  | _ => .ok none

/-- Attachment as stored by `_parse_attachment` (fields unconverted). -/
structure PAttachment where
  id : JValue
  filename : JValue
  mimeType : JValue
  size : JValue

/-- Message as stored by `_parse_message` (`uuid`/`text` unconverted,
role and timestamp validated). -/
structure PMsg where
  id : JValue
  role : Role
  content : JValue
  timestamp : PyDateTime
  attachments : List PAttachment

/-- Conversation as produced by `_parse_conversation_data`. -/
structure PConv where
  id : JValue
  title : JValue
  createdAt : PyDateTime
  updatedAt : PyDateTime
  messages : List PMsg

/-- `_parse_attachment`. -/
def parse_attachment (att : JValue) : Except PyErr (Option PAttachment) := do
  let attId ← pyGet att "id".data (← pyGet att "uuid".data (.str []))
  let filename ← pyGet att "file_name".data (← pyGet att "filename".data (.str []))
  if !truthy attId || !truthy filename then pure none
  else do
    let mime ← pyGet att "mime_type".data (.str "application/octet-stream".data)
    let size ← pyGet att "file_size".data (← pyGet att "size".data .null)
    pure (some ⟨attId, filename, mime, size⟩)

/-- `_parse_message`: requires a truthy `uuid`, a mapped sender and a
parsed timestamp, else yields `none`; uncaught dynamic errors
propagate. -/
def parse_message (msg : JValue) : Except PyErr (Option PMsg) := do
  let msgId ← pyGet msg "uuid".data .null
  if !truthy msgId then pure none
  else do
    let sender ← pyGet msg "sender".data (.str [])
    let role? ← map_sender_to_role sender
    match role? with
    | none => pure none
    | some role => do
      let content ← pyGet msg "text".data (.str [])
      let ts? ← parse_timestamp (← pyGet msg "created_at".data .null)
      match ts? with
      | none => pure none
      | some ts => do
        let attItems ← pyIter (← pyGet msg "attachments".data (.arr []))
        let atts ← attItems.foldlM
          (fun acc a => do
            let r ← parse_attachment a
            pure (match r with | some x => acc ++ [x] | none => acc))
          ([] : List PAttachment)
        pure (some ⟨msgId, role, content, ts, atts⟩)

/-- `_parse_conversation_data`: requires a truthy `uuid` and a parsed
`created_at`, defaults `name` to `"Untitled"` and `updated_at` to
`created_at`; the message loop has no handler, so an error in any
message aborts the whole record. -/
def parse_conversation_data (data : JValue) : Except PyErr (Option PConv) := do
  let convId ← pyGet data "uuid".data .null
  if !truthy convId then pure none
  else do
    let title ← pyGet data "name".data (.str "Untitled".data)
    let created? ← parse_timestamp (← pyGet data "created_at".data .null)
    let updated? ← parse_timestamp (← pyGet data "updated_at".data .null)
    match created? with
    | none => pure none
    | some created => do
      let msgItems ← pyIter (← pyGet data "chat_messages".data (.arr []))
      let msgs ← msgItems.foldlM
        (fun acc mj => do
          let r ← parse_message mj
          pure (match r with | some m => acc ++ [m] | none => acc))
        ([] : List PMsg)
      pure (some ⟨convId, title, created, updated?.getD created, msgs⟩)

/-- `_parse_conversations_json` applied to the decoded document: a
non-list logs an error and yields `[]`; each element is parsed under
`except Exception`, so a raising record is skipped, never fatal. -/
def parse_conversations_json (data : JValue) : List PConv :=
  match data with
  | .arr elems =>
    elems.foldl
      (fun acc el =>
        match parse_conversation_data el with
        | .ok (some c) => acc ++ [c]
        | _ => acc)
      []
  | _ => []

/-- `ClaudeProvider.parse`: aggregate `conversations.json` if present
(its `json.load` failure is, notably, not in this method's `except`
clause), else the per-file old format with a per-file
`except Exception`. -/
def parse (z : ZipFile) : Except PyErr (List PConv) :=
  pyCatch
    (match z with
     | .bad => .error .badZipFile
     | .entries items =>
       match zipLookup items "conversations.json".data with
       | some (some data) => .ok (parse_conversations_json data)
       | some none => .error .jsonDecodeError
       | none =>
         .ok (items.foldl
           (fun acc item =>
             if isConvJsonName item.1 then
               match item.2 with
               | some data =>
                 match parse_conversation_data data with
                 | .ok (some c) => acc ++ [c]
                 | _ => acc
               | none => acc
             else acc)
           []))
    (fun e => match e with
      | .badZipFile => true
      | .osError => true
      | _ => false)
    []

/-- `ClaudeProvider.detect`: old format by entry name, else probe the
first element of `conversations.json`; its `except` clause also catches
`JSONDecodeError`. -/
def detect (z : ZipFile) : Except PyErr Bool :=
  pyCatch
    (match z with
     | .bad => .error .badZipFile
     | .entries items =>
       if items.any (fun it => isConvJsonName it.1) then .ok true
       else
         match zipLookup items "conversations.json".data with
         | some none => .error .jsonDecodeError
         | some (some data) =>
           (match data with
            | .arr (first :: _) => do
              let hasUuid ← pyInKey "uuid".data first
              if hasUuid then do
                let hasCm ← pyInKey "chat_messages".data first
                if hasCm then do
                  let hasMap ← pyInKey "mapping".data first
                  if hasMap then pure false else pure true
                else pure false
              else pure false
            | _ => .ok false)
         | none => .ok false)
    (fun e => match e with
      | .badZipFile => true
      | .osError => true
      | .jsonDecodeError => true
      | _ => false)
    false

/-- `ClaudeProvider.parse_memories`: absent file or empty/non-list
document → `None`; the record's fields are stored without validation;
`BadZipFile`/`OSError`/`JSONDecodeError` are caught → `None`. -/
def parse_memories (z : ZipFile) : Except PyErr (Option Memories) :=
  pyCatch
    (match z with
     | .bad => .error .badZipFile
     | .entries items =>
       match zipLookup items "memories.json".data with
       | none => .ok none
       | some none => .error .jsonDecodeError
       | some (some data) =>
         match data with
         | .arr [] => .ok none
         | .arr (first :: _) => do
           let cm ← pyGet first "conversations_memory".data (.str [])
           let pm ← pyGet first "project_memories".data (.obj [])
           pure (some ⟨cm, pm⟩)
         | _ => .ok none)
    (fun e => match e with
      | .badZipFile => true
      | .osError => true
      | .jsonDecodeError => true
      | _ => false)
    none

/-! ### Record well-typedness (for the amended claim C6) -/

def isStrVal : JValue → Bool
  | .str _ => true
  | _ => false

def isObjVal : JValue → Bool
  | .obj _ => true
  | _ => false

/-- A sender value `dict.get` can hash (everything but list/dict). -/
def senderOk : JValue → Bool
  | .arr _ => false
  | .obj _ => false
  | _ => true

/-- A timestamp field value that cannot raise: falsy or a string. -/
def tsOk (v : JValue) : Bool := !truthy v || isStrVal v

/-- Well-typed raw message entry: hashable sender, falsy-or-string
timestamp, attachments (if present) a list of objects. -/
def msgWT : JValue → Bool
  | .obj fields =>
    senderOk (objGetD fields "sender".data (.str [])) &&
      tsOk (objGetD fields "created_at".data .null) &&
      (match objGetD fields "attachments".data (.arr []) with
       | .arr l => l.all isObjVal
       | _ => false)
  | _ => false

/-- Well-typed raw conversation record: falsy-or-string timestamps and
`chat_messages` (if present) a list of well-typed message objects. -/
def convRecordWT : JValue → Bool
  | .obj fields =>
    tsOk (objGetD fields "created_at".data .null) &&
      tsOk (objGetD fields "updated_at".data .null) &&
      (match objGetD fields "chat_messages".data (.arr []) with
       | .arr l => l.all msgWT
       | _ => false)
  | _ => false

/-! ## Format-B linearization

The Format-B parser (`providers/chatgpt.py`, the `ChatGPTProvider` that
cli.py imports) is not among the provided sources; only its callers and
tests are.  The graph and its traversal are therefore modelled from the
spec (§4.3): a conversation is a mapping from node identifier to a node
with an optional message payload, a parent reference and an ordered list
of child references; traversal starts at the root, and at every branch
point descends into the first child in the child-order list, collecting
payloads in visitation order; payload-less nodes contribute nothing. -/

/-- Modelled from the spec: a Format-B graph node.  The payload stands
for the extracted message of the node (`none` for synthetic nodes). -/
structure BNode where
  message : Option Str
  parent : Option Str
  children : List Str

abbrev BGraph := List (Str × BNode)

/-- Modelled from the spec: first-child depth-first linearization from a
node, returning `(node id, payload)` pairs in visitation order.  Fuel
bounds the walk; the arena is finite and acyclic by construction. -/
def linearizeFrom (g : BGraph) : Nat → Str → List (Str × Str)
  | 0, _ => []
  | fuel + 1, nodeId =>
    match dictGet? g nodeId with
    | none => []
    | some n =>
      (match n.message with
       | some payload => [(nodeId, payload)]
       | none => []) ++
        (match n.children with
         | [] => []
         | c :: _ => linearizeFrom g fuel c)

/-- All node identifiers in the subtree rooted at a node (full
depth-first enumeration over every child), used to speak about the
content of a sibling branch. -/
def subtreeIds (g : BGraph) : Nat → Str → List Str
  | 0, _ => []
  | fuel + 1, nodeId =>
    nodeId ::
      (match dictGet? g nodeId with
       | none => []
       | some n => (n.children.map (subtreeIds g fuel)).flatten)

/-! ## Specification views and concrete inputs -/

/-- The name the duplicate-resolution policy of §4.1 assigns to the
`k`-th occurrence (1-based, in input order) of a base name: the first
occurrence is unmodified, occurrence `k ≥ 2` gets `_{k}` appended. -/
def suffixName (base : Str) (k : Nat) : Str :=
  if k = 1 then base else base ++ '_' :: natRepr k

/-- Names-only view of the resolution fold (`convEntries` /
`projEntries` project onto exactly this). -/
def resolveAux (counts : List (Str × Nat)) : List Str → List Str
  | [] => []
  | b :: bs =>
    let p := stepName counts b
    p.1 :: resolveAux p.2 bs

/-- The counts dict agrees with the number of occurrences seen so far. -/
def CountsInv (counts : List (Str × Nat)) (seen : List Str) : Prop :=
  ∀ b, match dictGet? counts b with
    | none => seen.count b = 0
    | some c => c = seen.count b ∧ 1 ≤ c

/-- `startswith` a ten-character `YYYY-MM-DD` date prefix followed by an
underscore. -/
def HasDatePrefix (s : Str) : Prop :=
  ∃ y m d rest,
    s = natRepr y ++ '-' :: pad2 m ++ '-' :: pad2 d ++ '_' :: rest ∧
    0 < y ∧ (pad2 m).length = 2 ∧ (pad2 d).length = 2

/-- The ten-character `YYYY-MM-DD` prefix shape the spec asserts of
every resolved conversation directory name: four digits, hyphen, two
digits, hyphen, two digits, then the underscore separator. -/
def tenCharDatePrefix (s : Str) : Bool :=
  match s with
  | y1 :: y2 :: y3 :: y4 :: h1 :: m1 :: m2 :: h2 :: d1 :: d2 :: u :: _ =>
    y1.isDigit && y2.isDigit && y3.isDigit && y4.isDigit && h1 = '-' &&
      m1.isDigit && m2.isDigit && h2 = '-' && d1.isDigit && d2.isDigit &&
      u = '_'
  | _ => false

/-- The reserved root entry names of the projector. -/
def reservedRootNames : List Str :=
  ["_index.json".data, "_projects".data, "_memories".data]

/-- Sample timestamp (2024-01-15T10:00:00+00:00). -/
def dtSample : PyDateTime := ⟨2024, 1, 15, 10, 0, 0, 0, some 0⟩

/-- Arbitrary second timestamp, used as a distinct `now`. -/
def dtSample2 : PyDateTime := ⟨2025, 3, 2, 8, 30, 5, 0, none⟩

def msgSample : Message :=
  ⟨"m1".data, .user, "hello there".data, dtSample, []⟩

def convSampleA : Conversation :=
  ⟨"c1".data, "Hello".data, dtSample, dtSample, "claude".data, [msgSample]⟩

def convSampleB : Conversation :=
  ⟨"c2".data, "Hello".data, dtSample, dtSample, "claude".data, []⟩

def convSampleC : Conversation :=
  ⟨"c3".data, "Hello".data, dtSample, dtSample, "claude".data, []⟩

/-- Three conversations whose titles collide on the same day. -/
def convsSample : List Conversation := [convSampleA, convSampleB, convSampleC]

/-- A valid conversation created in year 99 (`datetime.MINYEAR` is 1,
so sub-1000 years are in range and parser-reachable). -/
def convYear99 : Conversation :=
  ⟨"c99".data, "Hello".data, ⟨99, 1, 15, 10, 0, 0, 0, some 0⟩,
    ⟨99, 1, 15, 10, 0, 0, 0, some 0⟩, "claude".data, []⟩

/-- The tree generated for the sample conversation list (no projects,
no memories). -/
def fsSample : List (Str × FsEntry) :=
  match generate_fs_json convsSample none none dtSample with
  | .ok fs => fs
  | .error _ => []

/-- The tree generated for the same input at a second run time. -/
def fsSample2 : List (Str × FsEntry) :=
  match generate_fs_json convsSample none none dtSample2 with
  | .ok fs => fs
  | .error _ => []

/-! ## Concrete parser inputs -/

/-- An archive whose `conversations.json` entry fails to decode. -/
def zipBadJson : ZipFile := .entries [("conversations.json".data, none)]

/-- An archive whose `memories.json` holds a record with a numeric
`project_memories` field. -/
def zipBadMemories : ZipFile :=
  .entries [("memories.json".data,
    some (.arr [.obj [("project_memories".data, .num 42)]]))]

/-- The `Memories` value `parse_memories` builds from it. -/
def memBadSample : Memories := ⟨.str [], .num 42⟩

/-- A well-formed raw message entry. -/
def msgRawGood : JValue :=
  .obj [ ("uuid".data, .str "m1".data),
         ("sender".data, .str "human".data),
         ("text".data, .str "hi".data),
         ("created_at".data, .str "2024-01-15T10:00:00Z".data)]

/-- A raw message entry whose `created_at` is a number. -/
def msgRawBadTs : JValue :=
  .obj [ ("uuid".data, .str "m2".data),
         ("sender".data, .str "assistant".data),
         ("text".data, .str "yo".data),
         ("created_at".data, .num 123)]

/-- A raw message entry with an unrecognized sender value. -/
def msgRawOddSender : JValue :=
  .obj [ ("uuid".data, .str "m3".data),
         ("sender".data, .str "tool".data),
         ("text".data, .str "x".data),
         ("created_at".data, .str "2024-01-15T10:00:00Z".data)]

/-- Fields of a raw conversation record holding one good message. -/
def convRawGoodFields : List (Str × JValue) :=
  [ ("uuid".data, .str "c1".data),
    ("created_at".data, .str "2024-01-15T10:00:00Z".data),
    ("chat_messages".data, .arr [msgRawGood])]

def convRawGood : JValue := .obj convRawGoodFields

/-- The same record with the bad-timestamp message appended. -/
def convRawMixed : JValue :=
  .obj [ ("uuid".data, .str "c1".data),
         ("created_at".data, .str "2024-01-15T10:00:00Z".data),
         ("chat_messages".data, .arr [msgRawGood, msgRawBadTs])]

/-- The same record with an unrecognized-sender message appended. -/
def convRawOdd : JValue :=
  .obj [ ("uuid".data, .str "c1".data),
         ("created_at".data, .str "2024-01-15T10:00:00Z".data),
         ("chat_messages".data, .arr [msgRawGood, msgRawOddSender])]

/-- Fields of a record whose `chat_messages` field is a number. -/
def convRawBadCmFields : List (Str × JValue) :=
  [ ("uuid".data, .str "c2".data),
    ("created_at".data, .str "2024-01-15T10:00:00Z".data),
    ("chat_messages".data, .num 5)]

def convRawBadCm : JValue := .obj convRawBadCmFields

/-! ## Run-to-run stability views (C9)

Every `generated_at` value lives inside a serialized `_index.json` leaf:
at the root, under `_projects` and under `_memories`.  Blanking those
three leaves makes "identical except `generated_at`" a plain equality
of trees. -/

/-- Blank out the `_index.json` entry of a directory. -/
def scrubDir (d : Dir) : Dir :=
  d.map fun q =>
    (q.1, if q.1 = "_index.json".data then FsEntry.leaf .null else q.2)

/-- Blank out the `_index.json` entry inside a directory entry. -/
def scrubSub : FsEntry → FsEntry
  | .dir d => .dir (scrubDir d)
  | e => e

/-- Root-entry scrub: the root `_index.json`, and the `_index.json`
inside the reserved `_projects`/`_memories` subtrees. -/
def scrubVal (k : Str) (v : FsEntry) : FsEntry :=
  if k = "_index.json".data then .leaf .null
  else if k = "_projects".data then scrubSub v
  else if k = "_memories".data then scrubSub v
  else v

def scrubRoot (fs : List (Str × FsEntry)) : List (Str × FsEntry) :=
  fs.map fun q => (q.1, scrubVal q.1 q.2)

/-! ## A Format-B sample graph (after the branching test fixture) -/

/-- Modelled from the spec: a branch after the first assistant node, the
first child leading to the hotfix path, the sibling to the discarded
GitFlow alternative. -/
def bGraphSample : BGraph :=
  [ ("a1".data, ⟨some "How do I branch?".data, none,
      ["u2".data, "u2alt".data]⟩),
    ("u2".data, ⟨some "Tell me about hotfixes".data, some "a1".data,
      ["a3".data]⟩),
    ("u2alt".data, ⟨some "Tell me about GitFlow".data, some "a1".data, []⟩),
    ("a3".data, ⟨some "A hotfix branches from main.".data, some "u2".data, []⟩)]

/-! # Theorems -/

/-! ### Digit lemmas -/

theorem charVal_digitChar {d : Nat} (h : d < 10) : charVal (digitChar d) = d := by
  revert h
  revert d
  decide

theorem isDigit_digitChar {d : Nat} (h : d < 10) : (digitChar d).isDigit = true := by
  revert h
  revert d
  decide

theorem decodeDigits_append_digit (xs : Str) (c : Char) :
    decodeDigits (xs ++ [c]) = charVal c + 10 * decodeDigits xs := by
  unfold decodeDigits
  rw [List.map_append, List.reverse_append]
  simp [Nat.ofDigits_cons]

theorem decodeDigits_natReprAux :
    ∀ fuel n, n < 10 ^ fuel → decodeDigits (natReprAux fuel n) = n
  | 0, n, h => by
    have : n = 0 := by simpa using h
    subst this
    rfl
  | fuel + 1, n, h => by
    unfold natReprAux
    by_cases h10 : n < 10
    · rw [if_pos h10]
      show decodeDigits ([] ++ [digitChar n]) = n
      rw [decodeDigits_append_digit]
      have : decodeDigits [] = 0 := rfl
      rw [this, charVal_digitChar h10]
      omega
    · rw [if_neg h10, decodeDigits_append_digit]
      have hdiv : n / 10 < 10 ^ fuel := by
        rw [Nat.div_lt_iff_lt_mul (by norm_num)]
        calc n < 10 ^ (fuel + 1) := h
          _ = 10 ^ fuel * 10 := by ring
      rw [decodeDigits_natReprAux fuel (n / 10) hdiv,
        charVal_digitChar (Nat.mod_lt n (by norm_num))]
      omega

theorem lt_ten_pow_succ_self (n : Nat) : n < 10 ^ (n + 1) := by
  calc n < 10 ^ n := Nat.lt_pow_self (by norm_num) n
    _ ≤ 10 ^ (n + 1) := Nat.pow_le_pow_right (by norm_num) (by omega)

theorem decodeDigits_natRepr (n : Nat) : decodeDigits (natRepr n) = n :=
  decodeDigits_natReprAux (n + 1) n (lt_ten_pow_succ_self n)

theorem natReprAux_digits :
    ∀ fuel n, ∀ c ∈ natReprAux fuel n, c.isDigit = true
  | 0, _, _, hc => by simp [natReprAux] at hc
  | fuel + 1, n, c, hc => by
    unfold natReprAux at hc
    by_cases h10 : n < 10
    · rw [if_pos h10] at hc
      simp at hc
      subst hc
      exact isDigit_digitChar h10
    · rw [if_neg h10] at hc
      rcases List.mem_append.mp hc with h1 | h1
      · exact natReprAux_digits fuel (n / 10) c h1
      · simp at h1
        subst h1
        exact isDigit_digitChar (Nat.mod_lt n (by norm_num))

theorem natRepr_digits {n : Nat} {c : Char} (hc : c ∈ natRepr n) :
    c.isDigit = true :=
  natReprAux_digits (n + 1) n c hc

theorem natReprAux_length :
    ∀ fuel n, n < 10 ^ fuel → (natReprAux fuel n).length ≤ fuel
  | 0, _, _ => by simp [natReprAux]
  | fuel + 1, n, h => by
    unfold natReprAux
    by_cases h10 : n < 10
    · rw [if_pos h10]
      simp
    · rw [if_neg h10]
      rw [List.length_append]
      have hdiv : n / 10 < 10 ^ fuel := by
        rw [Nat.div_lt_iff_lt_mul (by norm_num)]
        calc n < 10 ^ (fuel + 1) := h
          _ = 10 ^ fuel * 10 := by ring
      have := natReprAux_length fuel (n / 10) hdiv
      simp only [List.length_singleton]
      omega

theorem natReprAux_congr :
    ∀ f1 f2 n, 0 < f1 → 0 < f2 → n < 10 ^ f1 → n < 10 ^ f2 →
      natReprAux f1 n = natReprAux f2 n
  | f1 + 1, f2 + 1, n, _, _, h1, h2 => by
    unfold natReprAux
    by_cases h10 : n < 10
    · rw [if_pos h10, if_pos h10]
    · rw [if_neg h10, if_neg h10]
      have hf1 : 0 < f1 := by
        by_contra hz
        have : f1 = 0 := by omega
        subst this
        simp at h1
        omega
      have hf2 : 0 < f2 := by
        by_contra hz
        have : f2 = 0 := by omega
        subst this
        simp at h2
        omega
      have hd1 : n / 10 < 10 ^ f1 := by
        rw [Nat.div_lt_iff_lt_mul (by norm_num)]
        calc n < 10 ^ (f1 + 1) := h1
          _ = 10 ^ f1 * 10 := by ring
      have hd2 : n / 10 < 10 ^ f2 := by
        rw [Nat.div_lt_iff_lt_mul (by norm_num)]
        calc n < 10 ^ (f2 + 1) := h2
          _ = 10 ^ f2 * 10 := by ring
      rw [natReprAux_congr f1 f2 (n / 10) hf1 hf2 hd1 hd2]

theorem natRepr_length_le {n k : Nat} (hk : 0 < k) (h : n < 10 ^ k) :
    (natRepr n).length ≤ k := by
  unfold natRepr
  rw [natReprAux_congr (n + 1) k n (by omega) hk (lt_ten_pow_succ_self n) h]
  exact natReprAux_length k n h

theorem natRepr_inj {a b : Nat} (h : natRepr a = natRepr b) : a = b := by
  have := congrArg decodeDigits h
  rwa [decodeDigits_natRepr, decodeDigits_natRepr] at this

theorem decodeDigits_padZeros (w : Nat) (s : Str) :
    decodeDigits (padZeros w s) = decodeDigits s := by
  unfold padZeros decodeDigits
  rw [List.map_append, List.reverse_append, Nat.ofDigits_append]
  have hz : (List.replicate (w - s.length) '0').map charVal =
      List.replicate (w - s.length) 0 := by
    rw [List.map_replicate]
    rfl
  rw [hz, List.reverse_replicate]
  have hzero : ∀ k, Nat.ofDigits 10 (List.replicate k 0) = 0 := by
    intro k
    induction k with
    | zero => rfl
    | succ m ih =>
      simp [List.replicate_succ, Nat.ofDigits_cons, ih]
  rw [hzero]
  simp

theorem pad3_inj {a b : Nat} (h : pad3 a = pad3 b) : a = b := by
  have := congrArg decodeDigits h
  unfold pad3 at this
  rwa [decodeDigits_padZeros, decodeDigits_padZeros,
    decodeDigits_natRepr, decodeDigits_natRepr] at this

/-! ### Shape lemmas for `slugify` -/

theorem noDH_cons (c : Char) (l : Str) :
    noDoubleHyphen (c :: l) =
      ((!(decide (c = '-') && decide (l.head? = some '-'))) && noDoubleHyphen l) := by
  cases l with
  | nil => simp [noDoubleHyphen]
  | cons b r => simp [noDoubleHyphen]

theorem noDH_tail {c : Char} {l : Str} (h : noDoubleHyphen (c :: l) = true) :
    noDoubleHyphen l = true := by
  rw [noDH_cons] at h
  exact (Bool.and_eq_true_iff.mp h).2

theorem hyphenateAux_chars {b : Bool} {s : Str} {c : Char}
    (h : c ∈ hyphenateAux b s) : isSlugChar c = true ∨ c = '-' := by
  induction s generalizing b with
  | nil => simp [hyphenateAux] at h
  | cons d ds ih =>
    simp only [hyphenateAux] at h
    by_cases hd : isSlugChar d = true
    · rw [if_pos hd] at h
      rcases List.mem_cons.mp h with h1 | h1
      · exact Or.inl (h1 ▸ hd)
      · exact ih h1
    · rw [if_neg hd] at h
      cases b with
      | true => exact ih h
      | false =>
        simp only [Bool.false_eq_true, if_false] at h
        rcases List.mem_cons.mp h with h1 | h1
        · exact Or.inr h1
        · exact ih h1

theorem hyphenateAux_true_head {s : Str} {c : Char}
    (h : (hyphenateAux true s).head? = some c) : isSlugChar c = true := by
  induction s with
  | nil => simp [hyphenateAux] at h
  | cons d ds ih =>
    simp only [hyphenateAux] at h
    by_cases hd : isSlugChar d = true
    · rw [if_pos hd] at h
      simp only [List.head?_cons, Option.some.injEq] at h
      exact h ▸ hd
    · rw [if_neg hd, if_pos trivial] at h
      exact ih h

theorem hyphenateAux_noDH (b : Bool) (s : Str) :
    noDoubleHyphen (hyphenateAux b s) = true := by
  induction s generalizing b with
  | nil => simp [hyphenateAux, noDoubleHyphen]
  | cons d ds ih =>
    simp only [hyphenateAux]
    by_cases hd : isSlugChar d = true
    · rw [if_pos hd, noDH_cons]
      have hne : ¬ d = '-' := by
        intro he; subst he; simp [isSlugChar] at hd
      simp [hne, ih false]
    · rw [if_neg hd]
      cases b with
      | true => exact ih true
      | false =>
        simp only [Bool.false_eq_true, if_false]
        rw [noDH_cons]
        have : ¬ (hyphenateAux true ds).head? = some '-' := by
          intro he
          have := hyphenateAux_true_head he
          simp [isSlugChar] at this
        simp [this, ih true]

/-- `collapseHyphens` is the identity on a string with no double hyphen
(the condition on `b` covers the worker's intermediate states). -/
theorem collapseAux_eq_self {l : Str} (h : noDoubleHyphen l = true)
    {b : Bool} (hb : b = true → ¬ l.head? = some '-') :
    collapseAux b l = l := by
  induction l generalizing b with
  | nil => simp [collapseAux]
  | cons c cs ih =>
    by_cases hc : c = '-'
    · subst hc
      have hb0 : b = false := by
        cases b with
        | false => rfl
        | true => exact absurd (by simp) (hb rfl)
      subst hb0
      show '-' :: collapseAux true cs = '-' :: cs
      congr 1
      apply ih (noDH_tail h)
      intro _ hhd
      rw [noDH_cons] at h
      simp [hhd] at h
    · simp only [collapseAux, if_neg hc]
      congr 1
      exact ih (noDH_tail h) (by simp)

theorem noDH_append_left {l₁ l₂ : Str}
    (h : noDoubleHyphen (l₁ ++ l₂) = true) : noDoubleHyphen l₁ = true := by
  induction l₁ with
  | nil => simp [noDoubleHyphen]
  | cons c cs ih =>
    rw [List.cons_append, noDH_cons] at h
    rcases Bool.and_eq_true_iff.mp h with ⟨h1, h2⟩
    rw [noDH_cons]
    refine Bool.and_eq_true_iff.mpr ⟨?_, ih h2⟩
    cases cs with
    | nil => simp
    | cons d ds => simpa using h1

theorem noDH_append_right {l₁ l₂ : Str}
    (h : noDoubleHyphen (l₁ ++ l₂) = true) : noDoubleHyphen l₂ = true := by
  induction l₁ with
  | nil => simpa using h
  | cons c cs ih => exact ih (noDH_tail h)

theorem noDH_infixOf {l₁ l₂ : Str} (hi : l₁ <:+: l₂)
    (h : noDoubleHyphen l₂ = true) : noDoubleHyphen l₁ = true := by
  rcases hi with ⟨a, b, rfl⟩
  exact noDH_append_right (noDH_append_left h)

theorem dropWhile_head?_not {p : Char → Bool} {l : Str} {c : Char}
    (h : (l.dropWhile p).head? = some c) : p c = false := by
  induction l with
  | nil => simp [List.dropWhile] at h
  | cons d ds ih =>
    rw [List.dropWhile_cons] at h
    by_cases hd : p d = true
    · rw [if_pos hd] at h; exact ih h
    · rw [if_neg hd] at h
      simp only [List.head?_cons, Option.some.injEq] at h
      subst h
      simpa using hd

/-! ### Strip and truncation lemmas -/

theorem head?_of_prefixOf {l₁ l₂ : Str} (h : l₁ <+: l₂) (hne : l₁ ≠ []) :
    l₂.head? = l₁.head? := by
  rcases h with ⟨t, rfl⟩
  cases l₁ with
  | nil => exact absurd rfl hne
  | cons a l => simp

theorem pyStrip_infixOf (s : Str) : pyStripHyphens s <:+: s :=
  (List.rdropWhile_prefix _ _).isInfix.trans (List.dropWhile_suffix _).isInfix

theorem pyStrip_head {s : Str} {c : Char}
    (h : (pyStripHyphens s).head? = some c) : ¬ c = '-' := by
  have hne : pyStripHyphens s ≠ [] := by
    intro he; rw [he] at h; simp at h
  have hpre : pyStripHyphens s <+: s.dropWhile (fun c => c = '-') :=
    List.rdropWhile_prefix _ _
  have hd : (s.dropWhile (fun c => c = '-')).head? = some c :=
    (head?_of_prefixOf hpre hne).symm ▸ h
  have := dropWhile_head?_not hd
  simpa using this

theorem pyStrip_last {s : Str} {c : Char}
    (h : (pyStripHyphens s).getLast? = some c) : ¬ c = '-' := by
  have hne : pyStripHyphens s ≠ [] := by
    intro he; rw [he] at h; simp at h
  have hnot := List.rdropWhile_last_not (l := s.dropWhile (fun c => c = '-'))
    (p := fun c => c = '-') hne
  rw [List.getLast?_eq_getLast _ hne] at h
  have hc : (pyStripHyphens s).getLast hne = c := by
    simpa using h
  rw [← hc]
  simpa using hnot

theorem rsplitHead_prefix (s : Str) : rsplitHead s <+: s := by
  unfold rsplitHead
  split
  · exact (List.dropLast_prefix _).trans (List.rdropWhile_prefix _ _)
  · exact List.prefix_refl s

theorem rsplitHead_decomp {s : Str} (h : s.contains '-' = true) :
    ∃ t, s = rsplitHead s ++ '-' :: t := by
  have hmem : '-' ∈ s := by simpa using h
  have hne : List.rdropWhile (fun c => c ≠ '-') s ≠ [] := by
    rw [Ne, List.rdropWhile_eq_nil_iff]
    push_neg
    exact ⟨'-', hmem, by simp⟩
  have hnot := List.rdropWhile_last_not (l := s) (p := fun c => c ≠ '-') hne
  have hlast : (List.rdropWhile (fun c => c ≠ '-') s).getLast hne = '-' := by
    simpa using hnot
  have hsplit : (List.rdropWhile (fun c => c ≠ '-') s).dropLast ++ ['-'] =
      List.rdropWhile (fun c => c ≠ '-') s := by
    conv_rhs => rw [← List.dropLast_append_getLast hne]
    rw [hlast]
  rcases List.rdropWhile_prefix (fun c => c ≠ '-') (l := s) with ⟨t, ht⟩
  refine ⟨t, ?_⟩
  have hr : rsplitHead s = (List.rdropWhile (fun c => c ≠ '-') s).dropLast := by
    unfold rsplitHead
    rw [if_pos h]
  rw [hr]
  calc s = List.rdropWhile (fun c => c ≠ '-') s ++ t := ht.symm
    _ = ((List.rdropWhile (fun c => c ≠ '-') s).dropLast ++ ['-']) ++ t := by
        rw [hsplit]
    _ = (List.rdropWhile (fun c => c ≠ '-') s).dropLast ++ '-' :: t := by simp

/-- Package of the facts established about the stripped slug. -/
theorem goodSlug_of_strip (title : Str) :
    (∀ c ∈ pyStripHyphens (hyphenate (asciiLower title)),
        isSlugChar c = true ∨ c = '-') ∧
      noDoubleHyphen (pyStripHyphens (hyphenate (asciiLower title))) = true := by
  constructor
  · intro c hc
    exact hyphenateAux_chars ((pyStrip_infixOf _).sublist.subset hc)
  · exact noDH_infixOf (pyStrip_infixOf _) (hyphenateAux_noDH false _)

/-- Building block: a string is `slugShape` from the four properties. -/
theorem slugShape_intro {s : Str} (h1 : s ≠ [])
    (h2 : ∀ c ∈ s, isSlugChar c = true ∨ c = '-')
    (h3 : ∀ c, s.head? = some c → ¬ c = '-')
    (h4 : ∀ c, s.getLast? = some c → ¬ c = '-')
    (h5 : noDoubleHyphen s = true) : slugShape s = true := by
  have hh : ¬ s.head? = some '-' := fun he => h3 _ he rfl
  have hl : ¬ s.getLast? = some '-' := fun he => h4 _ he rfl
  have ha : s.all (fun c => isSlugChar c || c = '-') = true := by
    rw [List.all_eq_true]
    intro c hc
    rcases h2 c hc with h | h <;> simp [h]
  unfold slugShape
  simp only [Bool.and_eq_true, Bool.not_eq_true']
  refine ⟨⟨⟨⟨?_, ha⟩, by simpa using hh⟩, by simpa using hl⟩, h5⟩
  simpa [List.isEmpty_iff] using h1

/-- Core case analysis for `slugify`: the result is the fallback token,
or it is regex-shaped and fits in `maxLen`. -/
theorem slugify_cases (title : Str) (maxLen : Nat) (hml : 0 < maxLen) :
    slugify title maxLen = "untitled".data ∨
      (slugShape (slugify title maxLen) = true ∧
        (slugify title maxLen).length ≤ maxLen) := by
  have hg := goodSlug_of_strip title
  set s3 := pyStripHyphens (hyphenate (asciiLower title)) with hs3
  have hchars := hg.1
  have hnoDH := hg.2
  have hcol : collapseHyphens s3 = s3 :=
    collapseAux_eq_self hnoDH (fun h => nomatch h)
  have heq : slugify title maxLen =
      (if (if maxLen < (collapseHyphens s3).length
           then rsplitHead ((collapseHyphens s3).take maxLen)
           else collapseHyphens s3) = []
       then "untitled".data
       else (if maxLen < (collapseHyphens s3).length
             then rsplitHead ((collapseHyphens s3).take maxLen)
             else collapseHyphens s3)) := rfl
  rw [hcol] at heq
  by_cases hempty : s3 = []
  · left
    rw [heq, hempty]
    simp [rsplitHead]
  · have hhead3 : ∀ c, s3.head? = some c → ¬ c = '-' := fun c hc => pyStrip_head hc
    have hlast3 : ∀ c, s3.getLast? = some c → ¬ c = '-' := fun c hc => pyStrip_last hc
    by_cases htr : maxLen < s3.length
    · -- truncation branch
      rw [if_pos htr] at heq
      set tk := s3.take maxLen with htk
      have htkpre : tk <+: s3 := List.take_prefix maxLen s3
      have htklen : tk.length = maxLen := by
        rw [htk, List.length_take]
        omega
      have htkne : tk ≠ [] := by
        intro he
        rw [he] at htklen
        simp at htklen
        omega
      have htkhead : s3.head? = tk.head? := head?_of_prefixOf htkpre htkne
      have htkchars : ∀ c ∈ tk, isSlugChar c = true ∨ c = '-' :=
        fun c hc => hchars c (htkpre.sublist.subset hc)
      have htknoDH : noDoubleHyphen tk = true := noDH_infixOf htkpre.isInfix hnoDH
      by_cases hcont : tk.contains '-' = true
      · rcases rsplitHead_decomp hcont with ⟨t, hdec⟩
        set r := rsplitHead tk with hrdef
        have hrpre : r <+: tk := rsplitHead_prefix tk
        have hrne : r ≠ [] := by
          intro he
          rw [he] at hdec
          have : tk.head? = some '-' := by rw [hdec]; simp
          have := hhead3 '-' (htkhead.trans this)
          exact this rfl
        have hrhead : ∀ c, r.head? = some c → ¬ c = '-' := by
          intro c hc
          apply hhead3 c
          rw [htkhead, head?_of_prefixOf hrpre hrne, hc]
        have hrlast : ∀ c, r.getLast? = some c → ¬ c = '-' := by
          intro c hc
          rcases List.eq_nil_or_concat r with he | ⟨u, x, hux⟩
          · exact absurd he hrne
          · rw [List.concat_eq_append] at hux
            have hx : c = x := by
              rw [hux, List.getLast?_concat] at hc
              exact (Option.some.injEq _ _ ▸ hc.symm)
            subst hx
            have hsuffix : tk = u ++ (c :: '-' :: t) := by
              rw [hdec, hux]
              simp
            have hnd : noDoubleHyphen (c :: '-' :: t) = true :=
              noDH_append_right (hsuffix ▸ htknoDH)
            intro hcc
            subst hcc
            simp [noDoubleHyphen] at hnd
        have hfinal : slugify title maxLen = r := by
          rw [heq, if_neg hrne]
        right
        rw [hfinal]
        refine ⟨slugShape_intro hrne
          (fun c hc => htkchars c (hrpre.sublist.subset hc)) hrhead hrlast
          (noDH_infixOf hrpre.isInfix htknoDH), ?_⟩
        calc r.length ≤ tk.length := hrpre.length_le
          _ = maxLen := htklen
      · -- take contains no hyphen: rsplitHead is the identity
        have hreq : rsplitHead tk = tk := by
          unfold rsplitHead
          rw [if_neg (by simpa using hcont)]
        rw [hreq] at heq
        have hfinal : slugify title maxLen = tk := by
          rw [heq, if_neg htkne]
        have hnomem : '-' ∉ tk := by
          intro hm
          have : tk.contains '-' = true := by simpa using hm
          exact hcont this
        right
        rw [hfinal]
        refine ⟨slugShape_intro htkne htkchars ?_ ?_
          (noDH_infixOf htkpre.isInfix hnoDH), le_of_eq htklen⟩
        · intro c hc hcc
          subst hcc
          exact hnomem (List.mem_of_mem_head? hc)
        · intro c hc hcc
          subst hcc
          exact hnomem (List.mem_of_mem_getLast? hc)
    · -- no truncation
      rw [if_neg htr] at heq
      have hfinal : slugify title maxLen = s3 := by
        rw [heq, if_neg hempty]
      right
      rw [hfinal]
      exact ⟨slugShape_intro hempty hchars hhead3 hlast3 hnoDH, by omega⟩

theorem slugShape_chars {s : Str} (h : slugShape s = true) :
    ∀ c ∈ s, isSlugChar c = true ∨ c = '-' := by
  unfold slugShape at h
  simp only [Bool.and_eq_true] at h
  intro c hc
  have := List.all_eq_true.mp h.1.1.1.2 c hc
  simpa using this

/-- Every character of a `slugify` result (at the default width 50) is
`[a-z0-9]`, a hyphen, or a character of the fallback `"untitled"`. -/
theorem slugify_char_mem {title : Str} {c : Char}
    (hc : c ∈ slugify title 50) :
    isSlugChar c = true ∨ c = '-' ∨ c ∈ ("untitled".data : Str) := by
  rcases slugify_cases title 50 (by norm_num) with h | ⟨hs, _⟩
  · right; right; rwa [h] at hc
  · rcases slugShape_chars hs c hc with h | h
    · exact Or.inl h
    · exact Or.inr (Or.inl h)

theorem slugify_no_underscore (title : Str) : '_' ∉ slugify title 50 := by
  intro hm
  rcases slugify_char_mem hm with h | h | h
  · simp [isSlugChar] at h
  · simp at h
  · simp at h

theorem slugify_no_dot (title : Str) : '.' ∉ slugify title 50 := by
  intro hm
  rcases slugify_char_mem hm with h | h | h
  · simp [isSlugChar] at h
  · simp at h
  · simp at h

/-- C2: the claim as stated is falsified by the empty input with
`max_len = 3`: `slugify` returns the fallback `"untitled"`, whose length
8 exceeds the positive `max_len`. -/
theorem c2_counterexample :
    0 < 3 ∧ slugify "".data 3 = "untitled".data ∧
      ¬ (slugify "".data 3).length ≤ 3 := by
  refine ⟨by decide, by rfl, by decide⟩

/-- C2 (amended): for every input string and positive `max_len`,
`slugify` returns without raising a value that matches
`^[a-z0-9]+(-[a-z0-9]+)*$` or equals `"untitled"`; its length is at most
`max max_len 8`, and at most `max_len` whenever the result is not the
fallback `"untitled"` (the fallback has fixed length 8). -/
theorem c2_slugify_shape (title : Str) (maxLen : Nat) (hml : 0 < maxLen) :
    (slugShape (slugify title maxLen) = true ∨
        slugify title maxLen = "untitled".data) ∧
      (slugify title maxLen).length ≤ max maxLen 8 ∧
      (slugify title maxLen ≠ "untitled".data →
        (slugify title maxLen).length ≤ maxLen) := by
  rcases slugify_cases title maxLen hml with h | ⟨hs, hl⟩
  · refine ⟨Or.inr h, ?_, fun hne => absurd h hne⟩
    rw [h]
    have h8 : ("untitled".data : Str).length = 8 := by rfl
    rw [h8]
    exact le_max_right _ _
  · exact ⟨Or.inl hs, le_trans hl (le_max_left _ _), fun _ => hl⟩

/-- C2 (witness): the amended theorem applied at a concrete input. -/
theorem c2_slugify_shape_witness :
    (slugShape (slugify "Hello, World!".data 50) = true ∨
        slugify "Hello, World!".data 50 = "untitled".data) ∧
      (slugify "Hello, World!".data 50).length ≤ max 50 8 ∧
      (slugify "Hello, World!".data 50 ≠ "untitled".data →
        (slugify "Hello, World!".data 50).length ≤ 50) :=
  c2_slugify_shape "Hello, World!".data 50 (by decide)

/-! ### Dict lemmas -/

theorem dictGet?_insert_self (d : List (Str × α)) (k : Str) (v : α) :
    dictGet? (dictInsert d k v) k = some v := by
  induction d with
  | nil => simp [dictInsert, dictGet?]
  | cons p rest ih =>
    unfold dictInsert
    by_cases h : p.1 = k
    · rw [if_pos h]
      unfold dictGet?
      rw [if_pos h]
    · rw [if_neg h]
      unfold dictGet?
      rw [if_neg h]
      exact ih

theorem dictGet?_insert_ne (d : List (Str × α)) (k : Str) (v : α) {k' : Str}
    (h : ¬ k' = k) : dictGet? (dictInsert d k v) k' = dictGet? d k' := by
  induction d with
  | nil =>
    show dictGet? [(k, v)] k' = dictGet? [] k'
    unfold dictGet?
    rw [if_neg (fun he => h he.symm)]
    rfl
  | cons p rest ih =>
    unfold dictInsert
    by_cases hp : p.1 = k
    · rw [if_pos hp]
      unfold dictGet?
      have : ¬ p.1 = k' := fun he => h (he ▸ hp)
      rw [if_neg this, if_neg this]
    · rw [if_neg hp]
      unfold dictGet?
      by_cases hp' : p.1 = k'
      · rw [if_pos hp', if_pos hp']
      · rw [if_neg hp', if_neg hp']
        exact ih

/-! ### Underscore structure of base names -/

theorem padZeros_mem {w : Nat} {s : Str} {c : Char} (hc : c ∈ padZeros w s) :
    c = '0' ∨ c ∈ s := by
  unfold padZeros at hc
  rcases List.mem_append.mp hc with h | h
  · exact Or.inl (List.eq_of_mem_replicate h)
  · exact Or.inr h

theorem pad_digit {w n : Nat} {c : Char} (hc : c ∈ padZeros w (natRepr n)) :
    c.isDigit = true := by
  rcases padZeros_mem hc with h | h
  · subst h; decide
  · exact natRepr_digits h

theorem pad2_digit {n : Nat} {c : Char} (hc : c ∈ pad2 n) : c.isDigit = true :=
  pad_digit hc

theorem pad4_digit {n : Nat} {c : Char} (hc : c ∈ pad4 n) : c.isDigit = true :=
  pad_digit hc

theorem formatDate_chars {d : PyDateTime} {c : Char}
    (hc : c ∈ formatDateYMD d) : c.isDigit = true ∨ c = '-' := by
  unfold formatDateYMD at hc
  rcases List.mem_append.mp hc with h | h
  · rcases List.mem_append.mp h with h | h
    · exact Or.inl (natRepr_digits h)
    · rcases List.mem_cons.mp h with h | h
      · exact Or.inr h
      · exact Or.inl (pad2_digit h)
  · rcases List.mem_cons.mp h with h | h
    · exact Or.inr h
    · exact Or.inl (pad2_digit h)

theorem formatDate_no_underscore (d : PyDateTime) : '_' ∉ formatDateYMD d := by
  intro hm
  rcases formatDate_chars hm with h | h
  · simp [Char.isDigit] at h
  · simp at h

theorem natRepr_no_underscore (n : Nat) : '_' ∉ natRepr n := by
  intro hm
  have := natRepr_digits hm
  simp [Char.isDigit] at this

/-- Every produced base directory name splits as
`{underscore-free}_{underscore-free}`. -/
theorem dirname_split (conv : Conversation) :
    ∃ pre suf, generate_dirname conv = pre ++ '_' :: suf ∧
      '_' ∉ pre ∧ '_' ∉ suf :=
  ⟨formatDateYMD conv.createdAt, slugify conv.title 50, rfl,
    formatDate_no_underscore _, slugify_no_underscore _⟩

theorem count_split {pre suf : Str} (h1 : '_' ∉ pre) (h2 : '_' ∉ suf) :
    (pre ++ '_' :: suf).count '_' = 1 := by
  rw [List.count_append, List.count_cons_self,
    List.count_eq_zero.mpr h1, List.count_eq_zero.mpr h2]

theorem dropWhile_append_all {p : Char → Bool} {xs ys : Str}
    (hx : ∀ x ∈ xs, p x = true) :
    (xs ++ ys).dropWhile p = ys.dropWhile p := by
  induction xs with
  | nil => simp
  | cons a l ih =>
    rw [List.cons_append, List.dropWhile_cons, if_pos (hx a (by simp))]
    exact ih (fun x hx' => hx x (by simp [hx']))

/-- Splitting a string at its last underscore is unambiguous. -/
theorem append_underscore_inj {a1 s1 a2 s2 : Str}
    (h1 : '_' ∉ s1) (h2 : '_' ∉ s2)
    (he : a1 ++ '_' :: s1 = a2 ++ '_' :: s2) : a1 = a2 ∧ s1 = s2 := by
  have hrev := congrArg List.reverse he
  rw [List.reverse_append, List.reverse_append, List.reverse_cons,
    List.reverse_cons] at hrev
  have hassoc : ∀ (x y : Str), (x ++ ['_']) ++ y = x ++ '_' :: y := by
    intro x y
    simp
  rw [hassoc, hassoc] at hrev
  have hd := congrArg (List.dropWhile (fun c => !(c = '_'))) hrev
  rw [dropWhile_append_all (fun x hx => by
        simp only [Bool.not_eq_true']
        exact decide_eq_false (fun hc => h1 (hc ▸ List.mem_reverse.mp hx)))] at hd
  rw [dropWhile_append_all (fun x hx => by
        simp only [Bool.not_eq_true']
        exact decide_eq_false (fun hc => h2 (hc ▸ List.mem_reverse.mp hx)))] at hd
  rw [List.dropWhile_cons, List.dropWhile_cons] at hd
  simp only [decide_True, Bool.not_true, Bool.false_eq_true, if_false] at hd
  have ha : a1 = a2 := by
    have := List.cons.inj hd
    have := congrArg List.reverse this.2
    simpa using this
  subst ha
  have := List.append_cancel_left he
  exact ⟨rfl, List.cons.inj this |>.2⟩

/-- `suffixName` is injective on base names of the date-underscore-slug
shape, jointly with the occurrence number. -/
theorem suffixName_inj {b1 b2 : Str} {k1 k2 : Nat}
    (hb1 : ∃ p s, b1 = p ++ '_' :: s ∧ '_' ∉ p ∧ '_' ∉ s)
    (hb2 : ∃ p s, b2 = p ++ '_' :: s ∧ '_' ∉ p ∧ '_' ∉ s)
    (hk1 : 1 ≤ k1) (hk2 : 1 ≤ k2)
    (h : suffixName b1 k1 = suffixName b2 k2) : b1 = b2 ∧ k1 = k2 := by
  rcases hb1 with ⟨p1, s1, he1, hp1, hs1⟩
  rcases hb2 with ⟨p2, s2, he2, hp2, hs2⟩
  have hc1 : b1.count '_' = 1 := he1 ▸ count_split hp1 hs1
  have hc2 : b2.count '_' = 1 := he2 ▸ count_split hp2 hs2
  unfold suffixName at h
  by_cases e1 : k1 = 1 <;> by_cases e2 : k2 = 1
  · subst e1; subst e2
    rw [if_pos rfl, if_pos rfl] at h
    exact ⟨h, rfl⟩
  · exfalso
    rw [if_pos e1, if_neg e2] at h
    have := congrArg (List.count '_') h
    rw [hc1, List.count_append, List.count_cons_self, hc2,
      List.count_eq_zero.mpr (natRepr_no_underscore k2)] at this
    omega
  · exfalso
    rw [if_neg e1, if_pos e2] at h
    have := congrArg (List.count '_') h
    rw [hc2, List.count_append, List.count_cons_self, hc1,
      List.count_eq_zero.mpr (natRepr_no_underscore k1)] at this
    omega
  · rw [if_neg e1, if_neg e2] at h
    have := append_underscore_inj (natRepr_no_underscore k1)
      (natRepr_no_underscore k2) h
    exact ⟨this.1, natRepr_inj this.2⟩

/-! ### The resolution fold -/

theorem CountsInv_nil : CountsInv [] [] := by
  intro b
  simp [dictGet?]

theorem stepName_fst {counts : List (Str × Nat)} {seen : List Str}
    (hinv : CountsInv counts seen) (b : Str) :
    (stepName counts b).1 = suffixName b (seen.count b + 1) := by
  unfold stepName
  have hb := hinv b
  cases hg : dictGet? counts b with
  | none =>
    rw [hg] at hb
    simp only [hg]
    rw [suffixName, if_pos (by omega)]
  | some c =>
    rw [hg] at hb
    simp only [hg]
    rw [suffixName, if_neg (by omega)]
    rw [hb.1]

theorem stepName_inv {counts : List (Str × Nat)} {seen : List Str}
    (hinv : CountsInv counts seen) (b : Str) :
    CountsInv (stepName counts b).2 (seen ++ [b]) := by
  unfold stepName
  have hb := hinv b
  cases hg : dictGet? counts b with
  | none =>
    rw [hg] at hb
    simp only [hg]
    intro b'
    by_cases hbb : b' = b
    · subst hbb
      rw [dictGet?_insert_self]
      constructor
      · rw [List.count_append]
        simp [hb]
      · omega
    · rw [dictGet?_insert_ne _ _ _ hbb]
      have := hinv b'
      have hcount : (seen ++ [b]).count b' = seen.count b' := by
        rw [List.count_append]
        have hz : List.count b' [b] = 0 := by
          rw [List.count_eq_zero]
          simp [hbb]
        omega
      rw [hcount]
      exact this
  | some c =>
    rw [hg] at hb
    simp only [hg]
    intro b'
    by_cases hbb : b' = b
    · subst hbb
      rw [dictGet?_insert_self]
      constructor
      · rw [List.count_append, ← hb.1]
        simp
      · omega
    · rw [dictGet?_insert_ne _ _ _ hbb]
      have := hinv b'
      have hcount : (seen ++ [b]).count b' = seen.count b' := by
        rw [List.count_append]
        have hz : List.count b' [b] = 0 := by
          rw [List.count_eq_zero]
          simp [hbb]
        omega
      rw [hcount]
      exact this

theorem resolveAux_length (counts : List (Str × Nat)) (bs : List Str) :
    (resolveAux counts bs).length = bs.length := by
  induction bs generalizing counts with
  | nil => rfl
  | cons b rest ih =>
    unfold resolveAux
    simp [ih]

theorem convEntries_names (counts : List (Str × Nat)) (convs : List Conversation) :
    (convEntries counts convs).map Prod.fst =
      resolveAux counts (convs.map generate_dirname) := by
  induction convs generalizing counts with
  | nil => rfl
  | cons conv rest ih =>
    unfold convEntries resolveAux
    simp only [List.map_cons, List.map]
    rw [ih]

theorem assignedNames_length (convs : List Conversation) :
    (assignedNames convs).length = convs.length := by
  unfold assignedNames
  rw [convEntries_names, resolveAux_length, List.length_map]

theorem resolveAux_get :
    ∀ (bs : List Str) (counts : List (Str × Nat)) (seen : List Str),
      CountsInv counts seen → ∀ i (hi : i < bs.length)
        (hi' : i < (resolveAux counts bs).length),
        (resolveAux counts bs).get ⟨i, hi'⟩ =
          suffixName (bs.get ⟨i, hi⟩)
            ((seen ++ bs.take (i + 1)).count (bs.get ⟨i, hi⟩))
  | [], _, _, _, i, hi, _ => by simp at hi
  | b :: bs, counts, seen, hinv, 0, hi, hi' => by
    show (stepName counts b).1 = _
    rw [stepName_fst hinv b]
    congr 1
    rw [List.take_succ_cons, List.take_zero, List.count_append]
    simp
  | b :: bs, counts, seen, hinv, i + 1, hi, hi' => by
    show (resolveAux (stepName counts b).2 bs).get ⟨i, _⟩ = _
    have hinv' := stepName_inv hinv b
    rw [resolveAux_get bs (stepName counts b).2 (seen ++ [b]) hinv' i
      (by simpa using hi) (by
        rw [resolveAux_length]
        simpa using hi)]
    congr 1
    rw [List.take_succ_cons, List.append_assoc]
    rfl

theorem count_take_strict {bs : List Str} {i j : Nat} (hij : i < j)
    (hj : j < bs.length) :
    (bs.take (i + 1)).count (bs.get ⟨j, hj⟩) <
      (bs.take (j + 1)).count (bs.get ⟨j, hj⟩) := by
  set b := bs.get ⟨j, hj⟩ with hb
  have hsucc : bs.take (j + 1) = bs.take j ++ [b] := by
    rw [List.take_succ, List.getElem?_eq_getElem hj]
    simp [hb, List.get_eq_getElem]
  have htt : bs.take (i + 1) = (bs.take j).take (i + 1) := by
    rw [List.take_take]
    congr 1
    omega
  have hsub : List.Sublist (bs.take (i + 1)) (bs.take j) := by
    rw [htt]
    exact List.take_sublist _ _
  have hle : (bs.take (i + 1)).count b ≤ (bs.take j).count b :=
    hsub.count_le b
  rw [hsucc, List.count_append]
  have hone : List.count b [b] = 1 := by simp
  omega

theorem count_take_self {bs : List Str} {i : Nat} (hi : i < bs.length) :
    1 ≤ (bs.take (i + 1)).count (bs.get ⟨i, hi⟩) := by
  have hsucc : bs.take (i + 1) = bs.take i ++ [bs.get ⟨i, hi⟩] := by
    rw [List.take_succ, List.getElem?_eq_getElem hi]
    simp [List.get_eq_getElem]
  rw [hsucc, List.count_append]
  have hone : List.count (bs.get ⟨i, hi⟩) [bs.get ⟨i, hi⟩] = 1 := by simp
  omega

theorem resolveAux_nodup {bs : List Str}
    (hsplit : ∀ b ∈ bs, ∃ p s, b = p ++ '_' :: s ∧ '_' ∉ p ∧ '_' ∉ s) :
    (resolveAux [] bs).Nodup := by
  rw [List.nodup_iff_injective_get]
  rintro ⟨i, hi⟩ ⟨j, hj⟩ hab
  have hi' : i < bs.length := by rwa [resolveAux_length] at hi
  have hj' : j < bs.length := by rwa [resolveAux_length] at hj
  rw [resolveAux_get bs [] [] CountsInv_nil i hi' hi,
    resolveAux_get bs [] [] CountsInv_nil j hj' hj] at hab
  simp only [List.nil_append] at hab
  have hki := count_take_self hi'
  have hkj := count_take_self hj'
  have hinj := suffixName_inj (hsplit _ (List.get_mem bs i hi'))
    (hsplit _ (List.get_mem bs j hj')) hki hkj hab
  rcases hinj with ⟨hbeq, hkeq⟩
  apply Fin.ext
  by_contra hne
  have hij : ¬ i = j := by simpa using hne
  rcases Nat.lt_or_ge i j with hlt | hge
  · have hstrict := count_take_strict hlt hj'
    rw [hbeq] at hkeq
    exact absurd hkeq (Nat.ne_of_lt hstrict)
  · have hlt : j < i := by
      rcases Nat.lt_or_eq_of_le hge with h | h
      · exact h
      · exact absurd h.symm hij
    have hstrict := count_take_strict hlt hi'
    rw [← hbeq] at hkeq
    exact absurd hkeq.symm (Nat.ne_of_lt hstrict)

theorem assignedNames_nodup (convs : List Conversation) :
    (assignedNames convs).Nodup := by
  have hsplit : ∀ b ∈ convs.map generate_dirname,
      ∃ p s, b = p ++ '_' :: s ∧ '_' ∉ p ∧ '_' ∉ s := by
    intro b hb
    rcases List.mem_map.mp hb with ⟨conv, _, rfl⟩
    exact dirname_split conv
  have he : assignedNames convs = resolveAux [] (convs.map generate_dirname) := by
    unfold assignedNames
    rw [convEntries_names]
  rw [he]
  exact resolveAux_nodup hsplit

theorem assignedNames_get_eq (convs : List Conversation) (i : Nat)
    (hi : i < convs.length) (hi' : i < (assignedNames convs).length) :
    (assignedNames convs).get ⟨i, hi'⟩ =
      suffixName (generate_dirname (convs.get ⟨i, hi⟩))
        (((convs.map generate_dirname).take (i + 1)).count
          (generate_dirname (convs.get ⟨i, hi⟩))) := by
  have he : assignedNames convs = resolveAux [] (convs.map generate_dirname) := by
    unfold assignedNames
    rw [convEntries_names]
  have hlen : i < (convs.map generate_dirname).length := by simpa using hi
  have hrl : i < (resolveAux [] (convs.map generate_dirname)).length := by
    rw [resolveAux_length]
    simpa using hi
  have hcast : (assignedNames convs).get ⟨i, hi'⟩ =
      (resolveAux [] (convs.map generate_dirname)).get ⟨i, hrl⟩ := by
    rw [List.get_eq_getElem, List.get_eq_getElem]
    simp only [he]
  rw [hcast, resolveAux_get _ [] [] CountsInv_nil i hlen hrl]
  simp only [List.nil_append]
  have hmap : (convs.map generate_dirname).get ⟨i, hlen⟩ =
      generate_dirname (convs.get ⟨i, hi⟩) := by
    simp [List.get_eq_getElem]
  rw [hmap]

/-- C1: for every list of conversations given to `generate_fs_json`, the
resolved top-level conversation directory names are pairwise distinct;
the conversation at position `i` gets `suffixName base k` where `k`
counts the occurrences of its base name `{YYYY-MM-DD}_{slug}` among the
first `i+1` conversations: the first occurrence keeps the base name
unmodified and the n-th occurrence (n ≥ 2, in input order) gets `_n`
appended. -/
theorem c1_duplicate_resolution (convs : List Conversation) (i : Nat)
    (hi : i < convs.length) (hi' : i < (assignedNames convs).length) :
    (assignedNames convs).Nodup ∧
      (assignedNames convs).get ⟨i, hi'⟩ =
        suffixName (generate_dirname (convs.get ⟨i, hi⟩))
          (((convs.map generate_dirname).take (i + 1)).count
            (generate_dirname (convs.get ⟨i, hi⟩))) :=
  ⟨assignedNames_nodup convs, assignedNames_get_eq convs i hi hi'⟩

/-- C1 (witness): three same-day conversations titled "Hello" resolve to
`2024-01-15_hello`, `2024-01-15_hello_2`, `2024-01-15_hello_3`. -/
theorem c1_duplicate_resolution_witness :
    assignedNames convsSample =
      ["2024-01-15_hello".data, "2024-01-15_hello_2".data,
        "2024-01-15_hello_3".data] ∧
      ((assignedNames convsSample).Nodup ∧
        (assignedNames convsSample).get ⟨2, by decide⟩ =
          suffixName (generate_dirname (convsSample.get ⟨2, by decide⟩))
            (((convsSample.map generate_dirname).take 3).count
              (generate_dirname (convsSample.get ⟨2, by decide⟩)))) :=
  ⟨by decide, c1_duplicate_resolution convsSample 2 (by decide) (by decide)⟩

/-! ### Insertion-order dict lemmas -/

theorem dictInsert_fresh {α} {d : List (Str × α)} {k : Str} {v : α}
    (h : dictGet? d k = none) : dictInsert d k v = d ++ [(k, v)] := by
  induction d with
  | nil => rfl
  | cons p rest ih =>
    unfold dictGet? at h
    unfold dictInsert
    by_cases hp : p.1 = k
    · rw [if_pos hp] at h
      exact absurd h (by simp)
    · rw [if_neg hp] at h
      rw [if_neg hp, ih h]
      rfl

theorem dictGet?_append_left {α} {d1 d2 : List (Str × α)} {k : Str}
    (h : dictGet? d1 k = none) : dictGet? (d1 ++ d2) k = dictGet? d2 k := by
  induction d1 with
  | nil => rfl
  | cons p rest ih =>
    unfold dictGet? at h
    by_cases hp : p.1 = k
    · rw [if_pos hp] at h
      exact absurd h (by simp)
    · rw [if_neg hp] at h
      show (if p.1 = k then some p.2 else dictGet? (rest ++ d2) k) = dictGet? d2 k
      rw [if_neg hp]
      exact ih h

theorem dictGet?_of_nodup_mem {α} :
    ∀ {ps : List (Str × α)} {k : Str} {v : α},
      (ps.map Prod.fst).Nodup → (k, v) ∈ ps → dictGet? ps k = some v := by
  intro ps
  induction ps with
  | nil => intro k v _ hm; simp at hm
  | cons p rest ih =>
    intro k v hnd hm
    rcases List.mem_cons.mp hm with h | h
    · subst h
      unfold dictGet?
      rw [if_pos rfl]
    · have hk : k ∈ rest.map Prod.fst := List.mem_map.mpr ⟨(k, v), h, rfl⟩
      have hne : ¬ p.1 = k := by
        intro he
        rw [List.map_cons, List.nodup_cons] at hnd
        exact hnd.1 (he ▸ hk)
      unfold dictGet?
      rw [if_neg hne]
      exact ih (by
        rw [List.map_cons, List.nodup_cons] at hnd
        exact hnd.2) h

theorem foldl_dictInsert_eq_append {α} :
    ∀ (ps : List (Str × α)) (d : List (Str × α)),
      (∀ p ∈ ps, dictGet? d p.1 = none) →
      (ps.map Prod.fst).Nodup →
      ps.foldl (fun acc q => dictInsert acc q.1 q.2) d = d ++ ps := by
  intro ps
  induction ps with
  | nil => intro d _ _; simp
  | cons p rest ih =>
    intro d hfresh hnd
    rw [List.foldl_cons, dictInsert_fresh (hfresh p (by simp))]
    rw [List.map_cons, List.nodup_cons] at hnd
    have hfresh' : ∀ q ∈ rest, dictGet? (d ++ [(p.1, p.2)]) q.1 = none := by
      intro q hq
      rw [dictGet?_append_left (hfresh q (by simp [hq]))]
      unfold dictGet?
      rw [if_neg ?_]
      · rfl
      · intro he
        exact hnd.1 (he ▸ List.mem_map.mpr ⟨q, hq, rfl⟩)
    have := ih (d ++ [(p.1, p.2)]) hfresh' hnd.2
    rw [this]
    simp

/-! ### Message filenames -/

theorem natRepr_ne_nil (n : Nat) : natRepr n ≠ [] := by
  unfold natRepr natReprAux
  by_cases h : n < 10
  · rw [if_pos h]; simp
  · rw [if_neg h]; simp

theorem pad3_ne_nil (n : Nat) : pad3 n ≠ [] := by
  unfold pad3 padZeros
  intro h
  rcases List.append_eq_nil.mp h with ⟨_, h2⟩
  exact natRepr_ne_nil n h2

theorem takeWhile_append_not {p : Char → Bool} {xs : Str} {y : Char} {ys : Str}
    (hx : ∀ x ∈ xs, p x = true) (hy : p y = false) :
    (xs ++ y :: ys).takeWhile p = xs := by
  induction xs with
  | nil =>
    rw [List.nil_append, List.takeWhile_cons]
    simp [hy]
  | cons a l ih =>
    rw [List.cons_append, List.takeWhile_cons, if_pos (hx a (by simp))]
    rw [ih (fun x hx' => hx x (by simp [hx']))]

theorem pad3_digit {n : Nat} {c : Char} (hc : c ∈ pad3 n) : c.isDigit = true :=
  pad_digit hc

theorem msgFilename_assoc (i : Nat) (r : Role) :
    msgFilename i r = pad3 i ++ '_' :: (roleStr r ++ ".md".data) := by
  unfold msgFilename
  simp

theorem msgFilename_inj {i j : Nat} {r1 r2 : Role}
    (h : msgFilename i r1 = msgFilename j r2) : i = j := by
  rw [msgFilename_assoc, msgFilename_assoc] at h
  have hti := congrArg (List.takeWhile Char.isDigit) h
  rw [@takeWhile_append_not Char.isDigit (pad3 i) '_' (roleStr r1 ++ ".md".data)
      (fun x hx => pad3_digit hx) (by decide),
    @takeWhile_append_not Char.isDigit (pad3 j) '_' (roleStr r2 ++ ".md".data)
      (fun x hx => pad3_digit hx) (by decide)] at hti
  exact pad3_inj hti

theorem head?_append_left {a b : Str} (ha : a ≠ []) :
    (a ++ b).head? = a.head? :=
  head?_of_prefixOf (List.prefix_append a b) ha

theorem pad3_head_digit {n : Nat} {c : Char} (h : (pad3 n).head? = some c) :
    c.isDigit = true :=
  pad_digit (List.mem_of_mem_head? h)

theorem msgFilename_head {i : Nat} {r : Role} :
    ∃ c, (msgFilename i r).head? = some c ∧ c.isDigit = true := by
  rw [msgFilename_assoc, head?_append_left (pad3_ne_nil i)]
  rcases List.exists_mem_of_ne_nil _ (pad3_ne_nil i) with ⟨c0, _⟩
  cases hh : (pad3 i).head? with
  | none =>
    rw [List.head?_eq_none_iff] at hh
    exact absurd hh (pad3_ne_nil i)
  | some c =>
    exact ⟨c, rfl, pad3_head_digit hh⟩

theorem ne_of_head? {a b : Str} {ca cb : Char} (ha : a.head? = some ca)
    (hb : b.head? = some cb) (h : ¬ ca = cb) : a ≠ b := by
  intro he
  rw [he, hb] at ha
  have : cb = ca := by simpa using ha
  exact h this.symm

theorem msgFilename_ne_metadata (i : Nat) (r : Role) :
    msgFilename i r ≠ "_metadata.json".data := by
  rcases msgFilename_head (i := i) (r := r) with ⟨c, hc, hd⟩
  refine ne_of_head? hc (by rfl) ?_
  intro he
  subst he
  simp at hd

/-! ### The conversation directory -/

theorem msgKeys_nodup (msgs : List Message) :
    (msgs.enum.map (fun p => msgFilename (p.1 + 1) p.2.role)).Nodup := by
  rw [List.nodup_iff_injective_get]
  rintro ⟨i, hi⟩ ⟨j, hj⟩ hab
  rw [List.get_eq_getElem, List.get_eq_getElem, List.getElem_map,
    List.getElem_map, List.getElem_enum, List.getElem_enum] at hab
  have := msgFilename_inj hab
  exact Fin.ext (by omega)

theorem buildConvDir_eq (conv : Conversation) :
    buildConvDir conv =
      ("_metadata.json".data, FsEntry.leaf (.str (generate_metadata conv))) ::
        conv.messages.enum.map
          (fun p => (msgFilename (p.1 + 1) p.2.role,
            FsEntry.leaf (.str p.2.content))) := by
  unfold buildConvDir
  have hfold : conv.messages.enum.foldl
      (fun d p => dictInsert d (msgFilename (p.1 + 1) p.2.role)
        (.leaf (.str p.2.content)))
      (dictInsert [] "_metadata.json".data
        (.leaf (.str (generate_metadata conv)))) =
    (conv.messages.enum.map
        (fun p => (msgFilename (p.1 + 1) p.2.role,
          FsEntry.leaf (.str p.2.content)))).foldl
      (fun acc q => dictInsert acc q.1 q.2)
      (dictInsert [] "_metadata.json".data
        (.leaf (.str (generate_metadata conv)))) := by
    rw [List.foldl_map]
  rw [hfold, foldl_dictInsert_eq_append]
  · rfl
  · intro p hp
    rcases List.mem_map.mp hp with ⟨q, _, rfl⟩
    show dictGet? [("_metadata.json".data, _)] _ = none
    unfold dictGet?
    rw [if_neg (fun he => msgFilename_ne_metadata (q.1 + 1) q.2.role he.symm)]
    rfl
  · rw [List.map_map]
    exact msgKeys_nodup conv.messages

theorem buildConvDir_metadata (conv : Conversation) :
    dictGet? (buildConvDir conv) "_metadata.json".data =
      some (.leaf (.str (generate_metadata conv))) := by
  rw [buildConvDir_eq]
  unfold dictGet?
  rw [if_pos rfl]

theorem buildConvDir_msg (conv : Conversation) (i : Nat)
    (hi : i < conv.messages.length) :
    dictGet? (buildConvDir conv)
        (msgFilename (i + 1) ((conv.messages.get ⟨i, hi⟩).role)) =
      some (.leaf (.str (conv.messages.get ⟨i, hi⟩).content)) := by
  rw [buildConvDir_eq]
  have hne : ¬ "_metadata.json".data =
      msgFilename (i + 1) ((conv.messages.get ⟨i, hi⟩).role) :=
    fun he => msgFilename_ne_metadata _ _ he.symm
  show (if "_metadata.json".data = _ then _ else _) = _
  rw [if_neg hne]
  apply dictGet?_of_nodup_mem
  · rw [List.map_map]
    exact msgKeys_nodup conv.messages
  · have hlen : i < conv.messages.enum.length := by simpa using hi
    have hlen2 : i < (conv.messages.enum.map
        (fun p => (msgFilename (p.1 + 1) p.2.role,
          FsEntry.leaf (.str p.2.content)))).length := by
      simpa using hi
    have hmem := List.getElem_mem hlen2
    rw [List.getElem_map, List.getElem_enum] at hmem
    simpa [List.get_eq_getElem] using hmem

theorem buildConvDir_length (conv : Conversation) :
    (buildConvDir conv).length = 1 + conv.messages.length := by
  rw [buildConvDir_eq]
  simp
  omega

/-! ### Shape of resolved top-level names -/

theorem pad4_ne_nil (n : Nat) : pad4 n ≠ [] := by
  unfold pad4 padZeros
  intro h
  rcases List.append_eq_nil.mp h with ⟨_, h2⟩
  exact natRepr_ne_nil n h2

theorem formatDate_ne_nil (d : PyDateTime) : formatDateYMD d ≠ [] := by
  unfold formatDateYMD
  intro h
  rcases List.append_eq_nil.mp h with ⟨h1, _⟩
  rcases List.append_eq_nil.mp h1 with ⟨h2, _⟩
  exact natRepr_ne_nil _ h2

theorem dirname_ne_nil (conv : Conversation) : generate_dirname conv ≠ [] := by
  unfold generate_dirname
  intro h
  rcases List.append_eq_nil.mp h with ⟨h1, _⟩
  exact formatDate_ne_nil _ h1

theorem formatDate_head_digit (d : PyDateTime) :
    ∃ c, (formatDateYMD d).head? = some c ∧ c.isDigit = true := by
  unfold formatDateYMD
  rw [head?_append_left (by
    intro h
    rcases List.append_eq_nil.mp h with ⟨h2, _⟩
    exact natRepr_ne_nil _ h2)]
  rw [head?_append_left (natRepr_ne_nil _)]
  cases hh : (natRepr d.year).head? with
  | none =>
    rw [List.head?_eq_none_iff] at hh
    exact absurd hh (natRepr_ne_nil _)
  | some c =>
    exact ⟨c, rfl, natRepr_digits (List.mem_of_mem_head? hh)⟩

theorem suffixName_head {b : Str} (k : Nat) (hb : b ≠ []) :
    (suffixName b k).head? = b.head? := by
  unfold suffixName
  split
  · rfl
  · exact head?_append_left hb

theorem dirname_head_digit (conv : Conversation) :
    ∃ c, (generate_dirname conv).head? = some c ∧ c.isDigit = true := by
  unfold generate_dirname
  rw [head?_append_left (formatDate_ne_nil _)]
  exact formatDate_head_digit _

theorem assignedNames_head_digit (convs : List Conversation) (i : Nat)
    (hi : i < convs.length) (hi' : i < (assignedNames convs).length) :
    ∃ c, ((assignedNames convs).get ⟨i, hi'⟩).head? = some c ∧
      c.isDigit = true := by
  rw [assignedNames_get_eq convs i hi hi',
    suffixName_head _ (dirname_ne_nil _)]
  exact dirname_head_digit _

theorem digit_head_ne_reserved {s : Str} {c : Char} (hh : s.head? = some c)
    (hd : c.isDigit = true) {r : Str} (hr : r ∈ reservedRootNames) : s ≠ r := by
  have hrh : r.head? = some '_' := by
    simp only [reservedRootNames, List.mem_cons] at hr
    rcases hr with h | h | h | h
    · rw [h]; rfl
    · rw [h]; rfl
    · rw [h]; rfl
    · simp at h
  refine ne_of_head? hh hrh ?_
  intro he
  subst he
  simp at hd

/-! ### Structure of the generated tree -/

theorem convEntries_zip (counts : List (Str × Nat)) (convs : List Conversation) :
    convEntries counts convs =
      (resolveAux counts (convs.map generate_dirname)).zip
        (convs.map buildConvDir) := by
  induction convs generalizing counts with
  | nil => rfl
  | cons conv rest ih =>
    unfold convEntries resolveAux
    simp only [List.map_cons, List.zip_cons_cons]
    rw [ih]

theorem convEntries_length (convs : List Conversation) :
    (convEntries [] convs).length = convs.length := by
  rw [convEntries_zip, List.length_zip, resolveAux_length]
  simp

theorem convEntries_getElem (convs : List Conversation) (i : Nat)
    (h : i < (convEntries [] convs).length) (hi : i < convs.length)
    (hi' : i < (assignedNames convs).length) :
    (convEntries [] convs)[i] =
      ((assignedNames convs).get ⟨i, hi'⟩, buildConvDir (convs.get ⟨i, hi⟩)) := by
  have he : assignedNames convs = resolveAux [] (convs.map generate_dirname) := by
    unfold assignedNames
    rw [convEntries_names]
  have h2 : i < ((resolveAux [] (convs.map generate_dirname)).zip
      (convs.map buildConvDir)).length := by
    rw [← convEntries_zip]
    exact h
  have hx := convEntries_zip ([] : List (Str × Nat)) convs
  refine Prod.ext ?_ ?_
  · show (GetElem.getElem (convEntries [] convs) i h).1 = _
    have : (GetElem.getElem (convEntries [] convs) i h).1 =
        ((resolveAux [] (convs.map generate_dirname)).zip
          (convs.map buildConvDir))[i].1 := by
      simp only [hx]
    rw [this, List.getElem_zip]
    rw [List.get_eq_getElem]
    simp only [he]
  · show (GetElem.getElem (convEntries [] convs) i h).2 = _
    have : (GetElem.getElem (convEntries [] convs) i h).2 =
        ((resolveAux [] (convs.map generate_dirname)).zip
          (convs.map buildConvDir))[i].2 := by
      simp only [hx]
    rw [this, List.getElem_zip]
    show GetElem.getElem (convs.map buildConvDir) i (by simpa using hi) = _
    rw [List.getElem_map]
    rfl

theorem convEntries_mem (convs : List Conversation) (i : Nat)
    (hi : i < convs.length) (hi' : i < (assignedNames convs).length) :
    ((assignedNames convs).get ⟨i, hi'⟩,
      FsEntry.dir (buildConvDir (convs.get ⟨i, hi⟩))) ∈
      (convEntries [] convs).map (fun q => (q.1, FsEntry.dir q.2)) := by
  have hlen : i < (convEntries [] convs).length := by
    rw [convEntries_length]
    exact hi
  refine List.mem_map.mpr ⟨GetElem.getElem (convEntries [] convs) i hlen,
    List.getElem_mem hlen, ?_⟩
  rw [convEntries_getElem convs i hlen hi hi']

theorem convPart_eq (convs : List Conversation) :
    convPart convs =
      (convEntries [] convs).map (fun q => (q.1, FsEntry.dir q.2)) := by
  unfold convPart
  rw [show (fun (fs : List (Str × FsEntry)) (q : Str × Dir) =>
      dictInsert fs q.1 (FsEntry.dir q.2)) =
    (fun fs q => dictInsert fs ((fun (q : Str × Dir) =>
      (q.1, FsEntry.dir q.2)) q).1 ((fun (q : Str × Dir) =>
      (q.1, FsEntry.dir q.2)) q).2) from rfl]
  rw [← List.foldl_map (fun (q : Str × Dir) => (q.1, FsEntry.dir q.2))
    (fun acc q => dictInsert acc q.1 q.2)]
  rw [foldl_dictInsert_eq_append]
  · simp
  · intro p _
    rfl
  · rw [List.map_map]
    show ((convEntries [] convs).map
      (fun q => ((q.1, FsEntry.dir q.2) : Str × FsEntry).1)).Nodup
    have : (convEntries [] convs).map
        (fun q => ((q.1, FsEntry.dir q.2) : Str × FsEntry).1) =
        (convEntries [] convs).map Prod.fst := by
      apply List.map_congr_left
      intro q _
      rfl
    rw [this]
    exact assignedNames_nodup convs

theorem generate_fs_json_destruct {convs : List Conversation}
    {projects : Option (List Project)} {memories : Option Memories}
    {now : PyDateTime} {fs : List (Str × FsEntry)}
    (hok : generate_fs_json convs projects memories now = .ok fs) :
    ∃ fs2 idx, generate_index convs projects memories now = .ok idx ∧
      fs = dictInsert fs2 "_index.json".data (.leaf (.str idx)) ∧
      ((memories = none ∧ fs2 = projPart convs now projects) ∨
        (∃ m md, memories = some m ∧
          generate_memories_fs m projects now = .ok md ∧
          fs2 = dictInsert (projPart convs now projects) "_memories".data
            (.dir md))) := by
  unfold generate_fs_json at hok
  cases memories with
  | none =>
    rw [show fs2Part convs projects now none =
      .ok (projPart convs now projects) from rfl] at hok
    cases hidx : generate_index convs projects none now with
    | error e =>
      rw [hidx] at hok
      exact absurd hok (by simp)
    | ok idx =>
      rw [hidx] at hok
      refine ⟨projPart convs now projects, idx, rfl, ?_, Or.inl ⟨rfl, rfl⟩⟩
      injection hok with h
      exact h.symm
  | some m =>
    simp only [fs2Part] at hok
    cases hmf : generate_memories_fs m projects now with
    | error e =>
      rw [hmf] at hok
      exact absurd hok (by simp)
    | ok md =>
      rw [hmf] at hok
      cases hidx : generate_index convs projects (some m) now with
      | error e =>
        rw [hidx] at hok
        exact absurd hok (by simp)
      | ok idx =>
        rw [hidx] at hok
        refine ⟨dictInsert (projPart convs now projects) "_memories".data
          (.dir md), idx, rfl, ?_, Or.inr ⟨m, md, rfl, hmf, rfl⟩⟩
        injection hok with h
        exact h.symm

theorem fs_lookup_nonreserved {convs : List Conversation}
    {projects : Option (List Project)} {memories : Option Memories}
    {now : PyDateTime} {fs : List (Str × FsEntry)}
    (hok : generate_fs_json convs projects memories now = .ok fs)
    {k : Str} (hk : ∀ r ∈ reservedRootNames, ¬ k = r) :
    dictGet? fs k = dictGet? (convPart convs) k := by
  obtain ⟨fs2, idx, _, rfl, hcase⟩ := generate_fs_json_destruct hok
  rw [dictGet?_insert_ne _ _ _ (hk _ (by simp [reservedRootNames]))]
  have hproj : dictGet? (projPart convs now projects) k =
      dictGet? (convPart convs) k := by
    cases projects with
    | none => rfl
    | some ps =>
      simp only [projPart]
      by_cases hps : ps.isEmpty
      · rw [if_pos hps]
      · rw [if_neg hps]
        rw [dictGet?_insert_ne _ _ _ (hk _ (by simp [reservedRootNames]))]
  rcases hcase with ⟨_, rfl⟩ | ⟨m, md, _, _, rfl⟩
  · exact hproj
  · rw [dictGet?_insert_ne _ _ _ (hk _ (by simp [reservedRootNames]))]
    exact hproj

/-- Lookup of a resolved conversation directory in the final tree. -/
theorem generate_fs_json_conv_lookup {convs : List Conversation}
    {projects : Option (List Project)} {memories : Option Memories}
    {now : PyDateTime} {fs : List (Str × FsEntry)}
    (hok : generate_fs_json convs projects memories now = .ok fs)
    (i : Nat) (hi : i < convs.length) (hi' : i < (assignedNames convs).length) :
    dictGet? fs ((assignedNames convs).get ⟨i, hi'⟩) =
      some (.dir (buildConvDir (convs.get ⟨i, hi⟩))) := by
  rcases assignedNames_head_digit convs i hi hi' with ⟨c, hc, hd⟩
  rw [fs_lookup_nonreserved hok
    (fun r hr => digit_head_ne_reserved hc hd hr)]
  rw [convPart_eq]
  apply dictGet?_of_nodup_mem
  · rw [List.map_map]
    have hcomp : (Prod.fst ∘ fun (q : Str × Dir) => (q.1, FsEntry.dir q.2)) =
        Prod.fst := by
      funext q
      rfl
    rw [hcomp]
    exact assignedNames_nodup convs
  · exact convEntries_mem convs i hi hi'

/-- C8: a conversation's projected directory holds a `_metadata.json`
leaf whose `message_count` field equals the length of the message list,
plus one leaf per message named `{1-based index, zero-padded to 3
digits}_{role}.md` whose content is the message text verbatim, numbered
in sequence order; the directory has exactly `1 + n` entries and sits in
the generated tree under the conversation's resolved name. -/
theorem c8_conversation_directory (convs : List Conversation)
    (projects : Option (List Project)) (memories : Option Memories)
    (now : PyDateTime) (fs : List (Str × FsEntry))
    (hok : generate_fs_json convs projects memories now = .ok fs)
    (i : Nat) (hi : i < convs.length) (hi' : i < (assignedNames convs).length)
    (j : Nat) (hj : j < (convs.get ⟨i, hi⟩).messages.length) :
    dictGet? fs ((assignedNames convs).get ⟨i, hi'⟩) =
        some (.dir (buildConvDir (convs.get ⟨i, hi⟩))) ∧
      dictGet? (buildConvDir (convs.get ⟨i, hi⟩)) "_metadata.json".data =
        some (.leaf (.str (generate_metadata (convs.get ⟨i, hi⟩)))) ∧
      objGetD (metadataObj (convs.get ⟨i, hi⟩)) "message_count".data .null =
        .num (convs.get ⟨i, hi⟩).messages.length ∧
      dictGet? (buildConvDir (convs.get ⟨i, hi⟩))
          (msgFilename (j + 1)
            (((convs.get ⟨i, hi⟩).messages.get ⟨j, hj⟩).role)) =
        some (.leaf (.str ((convs.get ⟨i, hi⟩).messages.get ⟨j, hj⟩).content)) ∧
      (buildConvDir (convs.get ⟨i, hi⟩)).length =
        1 + (convs.get ⟨i, hi⟩).messages.length :=
  ⟨generate_fs_json_conv_lookup hok i hi hi', buildConvDir_metadata _, rfl,
    buildConvDir_msg _ j hj, buildConvDir_length _⟩

/-- C8 (witness): the theorem applied to the sample tree, conversation 0,
message 0. -/
theorem c8_conversation_directory_witness :
    dictGet? fsSample ((assignedNames convsSample).get ⟨0, by decide⟩) =
        some (.dir (buildConvDir (convsSample.get ⟨0, by decide⟩))) ∧
      dictGet? (buildConvDir (convsSample.get ⟨0, by decide⟩))
          "_metadata.json".data =
        some (.leaf (.str (generate_metadata (convsSample.get ⟨0, by decide⟩)))) ∧
      objGetD (metadataObj (convsSample.get ⟨0, by decide⟩))
          "message_count".data .null =
        .num (convsSample.get ⟨0, by decide⟩).messages.length ∧
      dictGet? (buildConvDir (convsSample.get ⟨0, by decide⟩))
          (msgFilename 1
            (((convsSample.get ⟨0, by decide⟩).messages.get ⟨0, by decide⟩).role)) =
        some (.leaf
          (.str ((convsSample.get ⟨0, by decide⟩).messages.get ⟨0, by decide⟩).content)) ∧
      (buildConvDir (convsSample.get ⟨0, by decide⟩)).length =
        1 + (convsSample.get ⟨0, by decide⟩).messages.length :=
  c8_conversation_directory convsSample none none dtSample fsSample rfl
    0 (by decide) (by decide) 0 (by decide)

/-! ### Date prefixes (C10) -/

theorem padZeros_length (w : Nat) (s : Str) :
    (padZeros w s).length = w - s.length + s.length := by
  simp [padZeros]

theorem pad4_length_valid {y : Nat} (hy : y ≤ 9999) : (pad4 y).length = 4 := by
  unfold pad4
  rw [padZeros_length]
  have := natRepr_length_le (by norm_num : (0 : Nat) < 4)
    (show y < 10 ^ 4 by omega)
  omega

theorem pad2_length_valid {m : Nat} (hm : m ≤ 99) : (pad2 m).length = 2 := by
  unfold pad2
  rw [padZeros_length]
  have := natRepr_length_le (by norm_num : (0 : Nat) < 2)
    (show m < 10 ^ 2 by omega)
  omega

theorem suffixName_datePrefix {conv : Conversation} {k : Nat}
    (hv : conv.createdAt.Valid) :
    HasDatePrefix (suffixName (generate_dirname conv) k) := by
  rcases hv with ⟨hy1, _, _, hm, _, hd⟩
  unfold suffixName
  split
  · exact ⟨conv.createdAt.year, conv.createdAt.month, conv.createdAt.day,
      slugify conv.title 50, rfl, hy1,
      pad2_length_valid (by omega), pad2_length_valid (by omega)⟩
  · refine ⟨conv.createdAt.year, conv.createdAt.month, conv.createdAt.day,
      slugify conv.title 50 ++ '_' :: natRepr k, ?_, hy1,
      pad2_length_valid (by omega), pad2_length_valid (by omega)⟩
    show generate_dirname conv ++ '_' :: natRepr k = _
    unfold generate_dirname formatDateYMD
    simp

/-- C10 (counterexample): `strftime("%Y-%m-%d")` does not zero-pad
years below 1000, so a valid year-99 conversation gets the name
`99-01-15_hello`, which does not begin with a ten-character
`YYYY-MM-DD` prefix: the claim's prefix form is false of the program
for such inputs. -/
theorem c10_counterexample :
    PyDateTime.Valid convYear99.createdAt ∧
      generate_dirname convYear99 = "99-01-15_hello".data ∧
      assignedNames [convYear99] = ["99-01-15_hello".data] ∧
      tenCharDatePrefix "99-01-15_hello".data = false :=
  ⟨by decide, by decide, by decide, by decide⟩

/-- C10 (amended): every resolved conversation directory name starts
with the date prefix the generator actually renders — the year as a
plain decimal (unpadded below 1000), zero-padded month and day, then
the underscore — hence starts with a decimal digit and never equals one
of the reserved root entries `_index.json`, `_projects`, `_memories`;
consequently in the generated tree the reserved entries hold exactly
what the generator wrote there.  (The spec's ten-character-prefix form
fails for valid years below 1000; see the counterexample.) -/
theorem c10_reserved_root_entries (convs : List Conversation)
    (projects : Option (List Project)) (memories : Option Memories)
    (now : PyDateTime) (fs : List (Str × FsEntry))
    (hok : generate_fs_json convs projects memories now = .ok fs)
    (i : Nat) (hi : i < convs.length) (hi' : i < (assignedNames convs).length)
    (hv : (convs.get ⟨i, hi⟩).createdAt.Valid) :
    HasDatePrefix ((assignedNames convs).get ⟨i, hi'⟩) ∧
      (∀ r ∈ reservedRootNames, (assignedNames convs).get ⟨i, hi'⟩ ≠ r) ∧
      (∃ idx, generate_index convs projects memories now = .ok idx ∧
        dictGet? fs "_index.json".data = some (.leaf (.str idx))) ∧
      (∀ ps, projects = some ps → ps.isEmpty = false →
        dictGet? fs "_projects".data =
          some (.dir (generate_projects_fs ps now))) ∧
      (∀ m md, memories = some m →
        generate_memories_fs m projects now = .ok md →
        dictGet? fs "_memories".data = some (.dir md)) := by
  obtain ⟨fs2, idx, hidx, rfl, hcase⟩ := generate_fs_json_destruct hok
  refine ⟨?_, ?_, ⟨idx, hidx, dictGet?_insert_self _ _ _⟩, ?_, ?_⟩
  · rw [assignedNames_get_eq convs i hi hi']
    exact suffixName_datePrefix hv
  · intro r hr
    rcases assignedNames_head_digit convs i hi hi' with ⟨c, hc, hd⟩
    exact digit_head_ne_reserved hc hd hr
  · intro ps hps hne
    subst hps
    rw [dictGet?_insert_ne _ _ _ (by decide)]
    have hpp : dictGet? (projPart convs now (some ps)) "_projects".data =
        some (.dir (generate_projects_fs ps now)) := by
      simp only [projPart]
      rw [if_neg (by simp [hne])]
      exact dictGet?_insert_self _ _ _
    rcases hcase with ⟨_, rfl⟩ | ⟨m, md, _, _, rfl⟩
    · exact hpp
    · rw [dictGet?_insert_ne _ _ _ (by decide)]
      exact hpp
  · intro m md hm hmd
    subst hm
    rcases hcase with ⟨hc, _⟩ | ⟨m', md', hm', hmd', rfl⟩
    · exact absurd hc (by simp)
    · have hm2 : m' = m := by
        injection hm'.symm
      subst hm2
      rw [hmd'] at hmd
      injection hmd with h
      subst h
      rw [dictGet?_insert_ne _ _ _ (by decide)]
      exact dictGet?_insert_self _ _ _

/-- C10 (witness): the theorem applied to the sample tree. -/
theorem c10_reserved_root_entries_witness :
    HasDatePrefix ((assignedNames convsSample).get ⟨0, by decide⟩) ∧
      (∀ r ∈ reservedRootNames,
        (assignedNames convsSample).get ⟨0, by decide⟩ ≠ r) ∧
      (∃ idx, generate_index convsSample none none dtSample = .ok idx ∧
        dictGet? fsSample "_index.json".data = some (.leaf (.str idx))) ∧
      (∀ ps, (none : Option (List Project)) = some ps → ps.isEmpty = false →
        dictGet? fsSample "_projects".data =
          some (.dir (generate_projects_fs ps dtSample))) ∧
      (∀ m md, (none : Option Memories) = some m →
        generate_memories_fs m none dtSample = .ok md →
        dictGet? fsSample "_memories".data = some (.dir md)) :=
  c10_reserved_root_entries convsSample none none dtSample fsSample rfl
    0 (by decide) (by decide) (by decide)

/-! ### Except-monad reduction helpers -/

theorem ebind_ok {α β : Type} (a : α) (f : α → Except PyErr β) :
    (Except.ok a : Except PyErr α) >>= f = f a := rfl

theorem ebind_err {α β : Type} (e : PyErr) (f : α → Except PyErr β) :
    (Except.error e : Except PyErr α) >>= f = .error e := rfl

theorem epure_def {α : Type} (a : α) : (pure a : Except PyErr α) = .ok a := rfl

theorem ebind_exists {α β : Type} {x : Except PyErr α}
    {k : α → Except PyErr β} {a : α} (hx : x = .ok a)
    (hk : ∃ b, k a = .ok b) : ∃ b, (x >>= k) = .ok b := by
  obtain ⟨b, hb⟩ := hk
  exact ⟨b, by rw [hx, ebind_ok, hb]⟩

theorem ebind_ok_eq {α β : Type} {x : Except PyErr α}
    {k : α → Except PyErr β} {a : α} {b : β} (hx : x = .ok a)
    (hk : k a = .ok b) : (x >>= k) = .ok b := by
  rw [hx, ebind_ok, hk]

/-! ### Error-handling boundary (C4, C5, C7) -/

/-- C4: refuted for `parse`.  `detect` swallows a JSON decode failure of
`conversations.json` and returns `false` (and both operations swallow
archive-open failures), but `parse`'s `except` clause lists only
`BadZipFile` and `OSError`, so the same decode failure escapes to the
caller as an uncaught `JSONDecodeError` instead of yielding `[]`. -/
theorem c4_parse_uncaught_decode_error :
    detect zipBadJson = .ok false ∧
      parse zipBadJson = .error .jsonDecodeError ∧
      detect ZipFile.bad = .ok false ∧
      parse ZipFile.bad = .ok [] :=
  ⟨rfl, rfl, rfl, rfl⟩

/-- C5: refuted.  `parse_memories` stores the raw `project_memories`
field without validation, and on a numeric value the projector's
`.items()` call raises `AttributeError`: `generate_fs_json` is not
total over parser-producible values. -/
theorem c5_projector_not_total :
    parse_memories zipBadMemories = .ok (some memBadSample) ∧
      generate_fs_json [] none (some memBadSample) dtSample =
        .error .attributeError :=
  ⟨rfl, rfl⟩

/-- C7: refuted for the timestamp clause.  A message whose `created_at`
is a truthy non-string raises `AttributeError` inside
`_parse_timestamp`; `_parse_message` does not catch it, so the
record-level handler drops the entire conversation rather than only the
offending message.  An unrecognized sender, by contrast, drops only
that message, as specified. -/
theorem c7_bad_timestamp_kills_conversation :
    parse_message msgRawBadTs = .error .attributeError ∧
      parse_conversation_data convRawMixed = .error .attributeError ∧
      parse_conversations_json (.arr [convRawMixed]) = [] ∧
      (parse_conversation_data convRawGood).map
          (Option.map fun c => c.messages.length) = .ok (some 1) ∧
      (parse_conversation_data convRawOdd).map
          (Option.map fun c => c.messages.length) = .ok (some 1) :=
  ⟨rfl, rfl, rfl, rfl, rfl⟩

/-- C6 (counterexample): a record with a truthy `uuid` and a parsable
`created_at` is nevertheless skipped when its `chat_messages` value is
not iterable — the `for` raises `TypeError` and the record-level
handler drops the record — so inclusion is not equivalent to
"identifier present and creation timestamp parses". -/
theorem c6_counterexample :
    truthy (objGetD convRawBadCmFields "uuid".data .null) = true ∧
      parse_timestamp (objGetD convRawBadCmFields "created_at".data .null) =
        .ok (some dtSample) ∧
      parse_conversation_data convRawBadCm = .error .typeError ∧
      parse_conversations_json (.arr [convRawBadCm]) = [] :=
  ⟨rfl, rfl, rfl, rfl⟩

/-! ### Well-typedness totality of the record parser (C6) -/

theorem map_sender_to_role_ok {s : JValue} (h : senderOk s = true) :
    ∃ ro, map_sender_to_role s = .ok ro := by
  cases s with
  | arr l => simp [senderOk] at h
  | obj l => simp [senderOk] at h
  | null => exact ⟨none, rfl⟩
  | bool b => exact ⟨none, rfl⟩
  | num n => exact ⟨none, rfl⟩
  | str s => exact ⟨_, rfl⟩

theorem parse_timestamp_ok {v : JValue} (h : tsOk v = true) :
    ∃ r, parse_timestamp v = .ok r := by
  unfold parse_timestamp
  cases hv : truthy v with
  | false => exact ⟨none, rfl⟩
  | true =>
    cases v with
    | str s => exact ⟨_, rfl⟩
    | null => simp [tsOk, hv, isStrVal] at h
    | bool b => simp [tsOk, hv, isStrVal] at h
    | num n => simp [tsOk, hv, isStrVal] at h
    | arr l => simp [tsOk, hv, isStrVal] at h
    | obj l => simp [tsOk, hv, isStrVal] at h

theorem parse_attachment_obj (f : List (Str × JValue)) :
    ∃ r, parse_attachment (.obj f) = .ok r := by
  unfold parse_attachment
  simp only [pyGet, ebind_ok, epure_def]
  split
  · exact ⟨none, rfl⟩
  · exact ⟨_, rfl⟩

theorem foldlM_ok {α β : Type} (g : α → β → Except PyErr α) (l : List β)
    (h : ∀ b ∈ l, ∀ a, ∃ a2, g a b = .ok a2) :
    ∀ a, ∃ a2, l.foldlM g a = .ok a2 := by
  induction l with
  | nil => intro a; exact ⟨a, rfl⟩
  | cons b t ih =>
    intro a
    obtain ⟨a1, ha1⟩ := h b (List.mem_cons_self b t) a
    obtain ⟨a2, ha2⟩ := ih (fun x hx s => h x (List.mem_cons_of_mem b hx) s) a1
    refine ⟨a2, ?_⟩
    rw [show (b :: t).foldlM g a = g a b >>= fun x => t.foldlM g x from rfl,
      ha1, ebind_ok]
    exact ha2

theorem parse_message_wt {mf : List (Str × JValue)}
    (h : msgWT (.obj mf) = true) :
    ∃ r, parse_message (.obj mf) = .ok r := by
  simp only [msgWT, Bool.and_eq_true] at h
  obtain ⟨⟨hs, ht⟩, ha⟩ := h
  unfold parse_message
  simp only [pyGet, ebind_ok, epure_def]
  cases hu : !truthy (objGetD mf "uuid".data .null) with
  | true => exact ⟨none, rfl⟩
  | false =>
    obtain ⟨ro, hro⟩ := map_sender_to_role_ok hs
    refine ebind_exists hro ?_
    cases ro with
    | none => exact ⟨none, rfl⟩
    | some role =>
      obtain ⟨ts?, htp⟩ := parse_timestamp_ok ht
      refine ebind_exists htp ?_
      cases ts? with
      | none => exact ⟨none, rfl⟩
      | some ts =>
        cases hat : objGetD mf "attachments".data (.arr []) with
        | null => rw [hat] at ha; simp at ha
        | bool b => rw [hat] at ha; simp at ha
        | num n => rw [hat] at ha; simp at ha
        | str s => rw [hat] at ha; simp at ha
        | obj o => rw [hat] at ha; simp at ha
        | arr l =>
          rw [hat] at ha
          refine ebind_exists (show pyIter (.arr l) = .ok l from rfl) ?_
          have hcond : ∀ b2 ∈ l, ∀ acc : List PAttachment,
              ∃ a2, (parse_attachment b2 >>= fun r =>
                (Except.ok
                  (match r with | some x => acc ++ [x] | none => acc) :
                  Except PyErr (List PAttachment))) = .ok a2 := by
            intro b2 hb2 acc
            have hobj : isObjVal b2 = true := by
              have hall := List.all_eq_true.mp ha b2 hb2
              simpa using hall
            cases b2 with
            | obj f2 =>
              obtain ⟨r2, hr2⟩ := parse_attachment_obj f2
              exact ⟨_, by rw [hr2, ebind_ok]⟩
            | null => simp [isObjVal] at hobj
            | bool b3 => simp [isObjVal] at hobj
            | num n3 => simp [isObjVal] at hobj
            | str s3 => simp [isObjVal] at hobj
            | arr l3 => simp [isObjVal] at hobj
          obtain ⟨atts, hfold⟩ := foldlM_ok _ l hcond []
          refine ebind_exists hfold ?_
          exact ⟨_, rfl⟩

/-- C6 (amended): for well-typed raw records — timestamp fields falsy or
strings, `chat_messages` (when present) a list of well-typed message
objects — the record parser returns without raising, includes the record
exactly when its `uuid` is truthy and its `created_at` parses, defaults
the title field lookup to `"Untitled"`, and defaults `updated_at` to
`created_at` when the updated timestamp is absent or unparsable.  (On
arbitrary records the inclusion equivalence fails; see the
counterexample.) -/
theorem c6_record_inclusion (f : List (Str × JValue))
    (hwt : convRecordWT (.obj f) = true) :
    ∃ res, parse_conversation_data (.obj f) = .ok res ∧
      (res.isSome = true ↔
        (truthy (objGetD f "uuid".data .null) = true ∧
         ∃ d, parse_timestamp (objGetD f "created_at".data .null) =
           .ok (some d))) ∧
      (∀ c, res = some c →
        c.title = objGetD f "name".data (.str "Untitled".data) ∧
        parse_timestamp (objGetD f "created_at".data .null) =
          .ok (some c.createdAt) ∧
        ∃ u, parse_timestamp (objGetD f "updated_at".data .null) = .ok u ∧
          c.updatedAt = u.getD c.createdAt) := by
  simp only [convRecordWT, Bool.and_eq_true] at hwt
  obtain ⟨⟨ht1, ht2⟩, hcm⟩ := hwt
  unfold parse_conversation_data
  simp only [pyGet, ebind_ok, epure_def]
  cases hu : truthy (objGetD f "uuid".data .null) with
  | false => refine ⟨none, rfl, by simp, by simp⟩
  | true =>
    obtain ⟨c?, hc⟩ := parse_timestamp_ok ht1
    obtain ⟨u?, hup⟩ := parse_timestamp_ok ht2
    rw [hc, hup]
    simp only [ebind_ok]
    rw [if_neg (by simp : ¬((!true : Bool) = true))]
    cases c? with
    | none =>
      refine ⟨none, rfl, by simp, by simp⟩
    | some created =>
      cases hmat : objGetD f "chat_messages".data (.arr []) with
      | null => rw [hmat] at hcm; simp at hcm
      | bool b => rw [hmat] at hcm; simp at hcm
      | num n => rw [hmat] at hcm; simp at hcm
      | str s => rw [hmat] at hcm; simp at hcm
      | obj o => rw [hmat] at hcm; simp at hcm
      | arr l =>
        rw [hmat] at hcm
        rw [show pyIter (.arr l) = .ok l from rfl]
        simp only [ebind_ok]
        have hcond : ∀ mj ∈ l, ∀ acc : List PMsg,
            ∃ a2, (parse_message mj >>= fun r =>
              (Except.ok
                (match r with | some m => acc ++ [m] | none => acc) :
                Except PyErr (List PMsg))) = .ok a2 := by
          intro mj hmj acc
          have hwtj : msgWT mj = true := by
            have hall := List.all_eq_true.mp hcm mj hmj
            simpa using hall
          cases mj with
          | obj mfj =>
            obtain ⟨rm, hrm⟩ := parse_message_wt hwtj
            exact ⟨_, by rw [hrm, ebind_ok]⟩
          | null => simp [msgWT] at hwtj
          | bool b2 => simp [msgWT] at hwtj
          | num n2 => simp [msgWT] at hwtj
          | str s2 => simp [msgWT] at hwtj
          | arr l2 => simp [msgWT] at hwtj
        obtain ⟨msgs, hfold⟩ := foldlM_ok _ l hcond []
        refine ⟨some ⟨objGetD f "uuid".data .null,
          objGetD f "name".data (.str "Untitled".data), created,
          u?.getD created, msgs⟩, ?_, by simp, ?_⟩
        · exact ebind_ok_eq hfold rfl
        · intro c hcq
          injection hcq with h2
          subst h2
          exact ⟨rfl, rfl, u?, rfl, rfl⟩

/-- C6 (witness): the amended theorem applied to a concrete well-typed
record with one good message. -/
theorem c6_record_inclusion_witness :
    convRecordWT (.obj convRawGoodFields) = true ∧
      (∃ res, parse_conversation_data (.obj convRawGoodFields) = .ok res ∧
        (res.isSome = true ↔
          (truthy (objGetD convRawGoodFields "uuid".data .null) = true ∧
           ∃ d, parse_timestamp
               (objGetD convRawGoodFields "created_at".data .null) =
             .ok (some d))) ∧
        (∀ c, res = some c →
          c.title = objGetD convRawGoodFields "name".data
            (.str "Untitled".data) ∧
          parse_timestamp
              (objGetD convRawGoodFields "created_at".data .null) =
            .ok (some c.createdAt) ∧
          ∃ u, parse_timestamp
              (objGetD convRawGoodFields "updated_at".data .null) = .ok u ∧
            c.updatedAt = u.getD c.createdAt)) :=
  ⟨by decide, c6_record_inclusion convRawGoodFields (by decide)⟩

/-! ### Run-to-run stability (C9) -/

theorem map_entries_dictInsert (g : Str → FsEntry → FsEntry)
    (X : List (Str × FsEntry)) (k : Str) (v : FsEntry) :
    (dictInsert X k v).map (fun q => (q.1, g q.1 q.2)) =
      dictInsert (X.map (fun q => (q.1, g q.1 q.2))) k (g k v) := by
  induction X with
  | nil => rfl
  | cons q rest ih =>
    by_cases hq : q.1 = k
    · simp [dictInsert, hq]
    · simp [dictInsert, hq, ih]

theorem scrubRoot_insert (X : List (Str × FsEntry)) (k : Str) (v : FsEntry) :
    scrubRoot (dictInsert X k v) =
      dictInsert (scrubRoot X) k (scrubVal k v) :=
  map_entries_dictInsert scrubVal X k v

theorem scrubDir_insert (X : Dir) (k : Str) (v : FsEntry) :
    scrubDir (dictInsert X k v) =
      dictInsert (scrubDir X) k
        (if k = "_index.json".data then FsEntry.leaf .null else v) :=
  map_entries_dictInsert
    (fun k2 v2 => if k2 = "_index.json".data then FsEntry.leaf .null else v2)
    X k v

theorem scrubVal_index (v : FsEntry) :
    scrubVal "_index.json".data v = .leaf .null := by
  unfold scrubVal
  rw [if_pos rfl]

theorem scrubVal_projects (v : FsEntry) :
    scrubVal "_projects".data v = scrubSub v := by
  unfold scrubVal
  rw [if_neg (by decide), if_pos rfl]

theorem scrubVal_memories (v : FsEntry) :
    scrubVal "_memories".data v = scrubSub v := by
  unfold scrubVal
  rw [if_neg (by decide), if_neg (by decide), if_pos rfl]

theorem objEraseKey_gen (pre post : List (Str × JValue)) (v1 v2 : JValue) :
    objEraseKey "generated_at".data
        (.obj (pre ++ ("generated_at".data, v1) :: post)) =
      objEraseKey "generated_at".data
        (.obj (pre ++ ("generated_at".data, v2) :: post)) := by
  simp only [objEraseKey]
  rw [List.filter_append, List.filter_append, List.filter_cons,
    List.filter_cons, if_neg (by simp), if_neg (by simp)]

theorem generate_memories_fs_destruct {m : Memories}
    {projects : Option (List Project)} {now : PyDateTime} {md : Dir}
    (h : generate_memories_fs m projects now = .ok md) :
    ∃ core tail, memoriesCore m projects = .ok core ∧
      memIndexTail m projects = .ok tail ∧
      md = dictInsert core "_index.json".data
        (.leaf (.str (jsonDumps
          (.obj (("generated_at".data, JValue.str (isoformat now)) ::
            tail))))) := by
  unfold generate_memories_fs at h
  cases hcore : memoriesCore m projects with
  | error e => rw [hcore, ebind_err] at h; exact absurd h (by simp)
  | ok core =>
    rw [hcore, ebind_ok] at h
    unfold memIndexObj at h
    cases htail : memIndexTail m projects with
    | error e =>
      rw [htail] at h
      simp [Except.map, ebind_err] at h
    | ok tail =>
      rw [htail] at h
      simp only [Except.map, ebind_ok, epure_def, Except.ok.injEq] at h
      exact ⟨core, tail, rfl, rfl, h.symm⟩

theorem scrub_projPart (convs : List Conversation) (t1 t2 : PyDateTime)
    (projects : Option (List Project)) :
    scrubRoot (projPart convs t1 projects) =
      scrubRoot (projPart convs t2 projects) := by
  cases projects with
  | none => rfl
  | some ps =>
    simp only [projPart]
    by_cases hps : ps.isEmpty = true
    · rw [if_pos hps, if_pos hps]
    · rw [if_neg hps, if_neg hps, scrubRoot_insert, scrubRoot_insert]
      refine congrArg
        (dictInsert (scrubRoot (convPart convs)) "_projects".data) ?_
      rw [scrubVal_projects, scrubVal_projects]
      show FsEntry.dir (scrubDir (generate_projects_fs ps t1)) =
        FsEntry.dir (scrubDir (generate_projects_fs ps t2))
      refine congrArg FsEntry.dir ?_
      unfold generate_projects_fs
      rw [scrubDir_insert, scrubDir_insert, if_pos rfl, if_pos rfl]

/-- C9: two runs of the projector on the same input model differ only in
the `generated_at` fields: the trees agree exactly after blanking the
three `_index.json` leaves that embed the run time, every index object
agrees after erasing its `generated_at` field, and every conversation
directory — its `_metadata.json` included — reads back identically from
both trees. -/
theorem c9_run_to_run_stability (convs : List Conversation)
    (projects : Option (List Project)) (memories : Option Memories)
    (t1 t2 : PyDateTime) (fs1 fs2 : List (Str × FsEntry))
    (h1 : generate_fs_json convs projects memories t1 = .ok fs1)
    (h2 : generate_fs_json convs projects memories t2 = .ok fs2) :
    scrubRoot fs1 = scrubRoot fs2 ∧
      (∀ i (hi : i < convs.length)
        (hi2 : i < (assignedNames convs).length),
        dictGet? fs1 ((assignedNames convs).get ⟨i, hi2⟩) =
          dictGet? fs2 ((assignedNames convs).get ⟨i, hi2⟩)) ∧
      (∀ o1 o2, indexObj convs projects memories t1 = .ok o1 →
        indexObj convs projects memories t2 = .ok o2 →
        objEraseKey "generated_at".data o1 =
          objEraseKey "generated_at".data o2) ∧
      (∀ ps, objEraseKey "generated_at".data (projectsIndexObj ps t1) =
        objEraseKey "generated_at".data (projectsIndexObj ps t2)) ∧
      (∀ mm o1 o2, memIndexObj mm projects t1 = .ok o1 →
        memIndexObj mm projects t2 = .ok o2 →
        objEraseKey "generated_at".data o1 =
          objEraseKey "generated_at".data o2) := by
  refine ⟨?_, ?_, ?_, ?_, ?_⟩
  · obtain ⟨fsa, idx1, hidx1, hfs1, hcase1⟩ := generate_fs_json_destruct h1
    obtain ⟨fsb, idx2, hidx2, hfs2, hcase2⟩ := generate_fs_json_destruct h2
    subst hfs1
    subst hfs2
    rw [scrubRoot_insert, scrubRoot_insert]
    rw [scrubVal_index, scrubVal_index]
    refine congrArg
      (fun X => dictInsert X "_index.json".data (FsEntry.leaf JValue.null)) ?_
    rcases hcase1 with ⟨hm1, rfl⟩ | ⟨m1, md1, hm1, hmd1, rfl⟩ <;>
      rcases hcase2 with ⟨hm2, rfl⟩ | ⟨m2, md2, hm2, hmd2, rfl⟩
    · exact scrub_projPart convs t1 t2 projects
    · rw [hm1] at hm2; exact absurd hm2 (by simp)
    · rw [hm2] at hm1; exact absurd hm1 (by simp)
    · rw [hm1] at hm2
      injection hm2 with hmm
      subst hmm
      rw [scrubRoot_insert, scrubRoot_insert,
        scrub_projPart convs t1 t2 projects]
      refine congrArg
        (dictInsert (scrubRoot (projPart convs t2 projects))
          "_memories".data) ?_
      rw [scrubVal_memories, scrubVal_memories]
      show FsEntry.dir (scrubDir md1) = FsEntry.dir (scrubDir md2)
      refine congrArg FsEntry.dir ?_
      obtain ⟨core1, tail1, hco1, hta1, rfl⟩ :=
        generate_memories_fs_destruct hmd1
      obtain ⟨core2, tail2, hco2, hta2, rfl⟩ :=
        generate_memories_fs_destruct hmd2
      rw [hco1] at hco2
      injection hco2 with hcc
      subst hcc
      rw [hta1] at hta2
      injection hta2 with htt
      subst htt
      rw [scrubDir_insert, scrubDir_insert, if_pos rfl, if_pos rfl]
  · intro i hi hi2
    rw [generate_fs_json_conv_lookup h1 i hi hi2,
      generate_fs_json_conv_lookup h2 i hi hi2]
  · intro o1 o2 ho1 ho2
    unfold indexObj at ho1 ho2
    cases htail : indexFieldsTail projects memories with
    | error e => rw [htail] at ho1; simp [Except.map] at ho1
    | ok tail =>
      rw [htail] at ho1
      rw [htail] at ho2
      simp only [Except.map, Except.ok.injEq] at ho1 ho2
      subst ho1
      subst ho2
      exact objEraseKey_gen
        [("conversation_count".data, JValue.num convs.length)]
        (("conversations".data, JValue.arr (convs.map convSummary)) :: tail)
        (JValue.str (isoformat t1)) (JValue.str (isoformat t2))
  · intro ps
    exact objEraseKey_gen [("project_count".data, JValue.num ps.length)]
      (projectsIndexTail ps) (JValue.str (isoformat t1))
      (JValue.str (isoformat t2))
  · intro mm o1 o2 ho1 ho2
    unfold memIndexObj at ho1 ho2
    cases htail : memIndexTail mm projects with
    | error e => rw [htail] at ho1; simp [Except.map] at ho1
    | ok tail =>
      rw [htail] at ho1
      rw [htail] at ho2
      simp only [Except.map, Except.ok.injEq] at ho1 ho2
      subst ho1
      subst ho2
      exact objEraseKey_gen [] tail (JValue.str (isoformat t1))
        (JValue.str (isoformat t2))

/-- C9 (witness): the theorem applied to the sample input projected at
two different run times. -/
theorem c9_run_to_run_stability_witness :
    scrubRoot fsSample = scrubRoot fsSample2 ∧
      (∀ i (hi : i < convsSample.length)
        (hi2 : i < (assignedNames convsSample).length),
        dictGet? fsSample ((assignedNames convsSample).get ⟨i, hi2⟩) =
          dictGet? fsSample2 ((assignedNames convsSample).get ⟨i, hi2⟩)) ∧
      (∀ o1 o2, indexObj convsSample none none dtSample = .ok o1 →
        indexObj convsSample none none dtSample2 = .ok o2 →
        objEraseKey "generated_at".data o1 =
          objEraseKey "generated_at".data o2) ∧
      (∀ ps, objEraseKey "generated_at".data (projectsIndexObj ps dtSample) =
        objEraseKey "generated_at".data (projectsIndexObj ps dtSample2)) ∧
      (∀ mm o1 o2, memIndexObj mm none dtSample = .ok o1 →
        memIndexObj mm none dtSample2 = .ok o2 →
        objEraseKey "generated_at".data o1 =
          objEraseKey "generated_at".data o2) :=
  c9_run_to_run_stability convsSample none none dtSample dtSample2
    fsSample fsSample2 rfl rfl

/-! ### Format-B branch linearization (C3) -/

theorem linearize_ids_sub (g : BGraph) :
    ∀ fuel c q, q ∈ linearizeFrom g fuel c → q.1 ∈ subtreeIds g fuel c := by
  intro fuel
  induction fuel with
  | zero =>
    intro c q hq
    simp [linearizeFrom] at hq
  | succ n ih =>
    intro c q hq
    unfold linearizeFrom at hq
    unfold subtreeIds
    cases hn : dictGet? g c with
    | none => rw [hn] at hq; simp at hq
    | some nd =>
      rw [hn] at hq
      have hq' : q ∈
          (match nd.message with
           | some payload => [(c, payload)]
           | none => []) ++
            (match nd.children with
             | [] => []
             | c1 :: _ => linearizeFrom g n c1) := hq
      show q.1 ∈ c :: (nd.children.map (subtreeIds g n)).flatten
      rcases List.mem_append.mp hq' with hq1 | hq2
      · cases hm : nd.message with
        | none => rw [hm] at hq1; simp at hq1
        | some payload =>
          rw [hm] at hq1
          simp only [List.mem_singleton] at hq1
          subst hq1
          exact List.mem_cons_self _ _
      · cases hcc : nd.children with
        | nil => rw [hcc] at hq2; simp at hq2
        | cons c1 rest =>
          rw [hcc] at hq2
          refine List.mem_cons_of_mem _ ?_
          exact List.mem_flatten.mpr
            ⟨subtreeIds g n c1,
              List.mem_map_of_mem _ (List.mem_cons_self c1 rest),
              ih c1 q hq2⟩

/-- C3 (modelled from the spec): at a branch point the Format-B
linearization emits the node's payload and descends into the first
child only: the sequence equals the node's payload entry followed by
the first child's linearization; every visited node is the branch node
itself or lies in the first child's subtree; and no visited node lies
in a sibling's subtree whenever that sibling's subtree is disjoint from
the first child's subtree and avoids the branch node. -/
theorem c3_branch_first_child (g : BGraph) (fuel : Nat) (r : Str)
    (n : BNode) (c1 c2 : Str) (cs : List Str)
    (hr : dictGet? g r = some n) (hc : n.children = c1 :: c2 :: cs) :
    linearizeFrom g (fuel + 1) r =
      (match n.message with
       | some payload => [(r, payload)]
       | none => []) ++ linearizeFrom g fuel c1 ∧
      (∀ q ∈ linearizeFrom g (fuel + 1) r,
        q.1 = r ∨ q.1 ∈ subtreeIds g fuel c1) ∧
      (∀ sib ∈ c2 :: cs, ∀ sf,
        (∀ x ∈ subtreeIds g fuel c1, x ∉ subtreeIds g sf sib) →
        r ∉ subtreeIds g sf sib →
        ∀ q ∈ linearizeFrom g (fuel + 1) r,
          q.1 ∉ subtreeIds g sf sib) := by
  have heq : linearizeFrom g (fuel + 1) r =
      (match n.message with
       | some payload => [(r, payload)]
       | none => []) ++ linearizeFrom g fuel c1 := by
    show (match dictGet? g r with
          | none => ([] : List (Str × Str))
          | some nd =>
            (match nd.message with
             | some payload => [(r, payload)]
             | none => []) ++
              (match nd.children with
               | [] => []
               | c2 :: _ => linearizeFrom g fuel c2)) = _
    rw [hr]
    show ((match n.message with
           | some payload => [(r, payload)]
           | none => []) ++
            (match n.children with
             | [] => []
             | c2 :: _ => linearizeFrom g fuel c2)) = _
    rw [hc]
  refine ⟨heq, ?_, ?_⟩
  · intro q hq
    rw [heq] at hq
    rcases List.mem_append.mp hq with hq1 | hq2
    · cases hm : n.message with
      | none => rw [hm] at hq1; simp at hq1
      | some payload =>
        rw [hm] at hq1
        simp only [List.mem_singleton] at hq1
        subst hq1
        exact Or.inl rfl
    · exact Or.inr (linearize_ids_sub g fuel c1 q hq2)
  · intro sib hsib sf hdisj hrns q hq hqin
    rw [heq] at hq
    rcases List.mem_append.mp hq with hq1 | hq2
    · cases hm : n.message with
      | none => rw [hm] at hq1; simp at hq1
      | some payload =>
        rw [hm] at hq1
        simp only [List.mem_singleton] at hq1
        subst hq1
        exact hrns hqin
    · exact hdisj q.1 (linearize_ids_sub g fuel c1 q hq2) hqin

/-- C3 (witness): the theorem applied to the sample branch graph —
children of the branch node are the hotfix path then the discarded
GitFlow alternative. -/
theorem c3_branch_first_child_witness :
    linearizeFrom bGraphSample 4 "a1".data =
      (match (BNode.mk (some "How do I branch?".data) none
          ["u2".data, "u2alt".data]).message with
       | some payload => [("a1".data, payload)]
       | none => []) ++ linearizeFrom bGraphSample 3 "u2".data ∧
      (∀ q ∈ linearizeFrom bGraphSample 4 "a1".data,
        q.1 = "a1".data ∨ q.1 ∈ subtreeIds bGraphSample 3 "u2".data) ∧
      (∀ sib ∈ "u2alt".data :: ([] : List Str), ∀ sf,
        (∀ x ∈ subtreeIds bGraphSample 3 "u2".data,
          x ∉ subtreeIds bGraphSample sf sib) →
        "a1".data ∉ subtreeIds bGraphSample sf sib →
        ∀ q ∈ linearizeFrom bGraphSample 4 "a1".data,
          q.1 ∉ subtreeIds bGraphSample sf sib) :=
  c3_branch_first_child bGraphSample 3 "a1".data
    ⟨some "How do I branch?".data, none, ["u2".data, "u2alt".data]⟩
    "u2".data "u2alt".data [] rfl rfl

end ChatFfs
